import Mathlib

/-!
# Verification of the CppConfigFramework core configuration loader

This file embeds the core of the CppConfigFramework configuration loader
(`ConfigReaderImpl.cpp`, `ConfigReader.cpp`, `ConfigReaderFactory.cpp`,
`ConfigNodeData.hpp`) in Lean and proves properties of the embedding.

Conventions of the embedding:
* JSON values (`QJsonValue`) and config nodes (`ConfigNode`) are mutual
  inductives with their own list spines, so that all recursion over them is
  structural.
* The C++ tree mutates nodes in place and resolves references through parent
  back-pointers.  Here a node's identity is its position in the tree: a
  position is a list of child indices, in-place mutation is `replaceAt`, and
  the parent of the node at position `p` is the node at `p.dropLast`.
  Detached subtrees whose parent pointer aims into another tree (the cloned
  config override of a derived object) are represented by a stack of
  `(tree, anchor position)` frames.
* `ConfigNode.cpp` is not part of the sources; its operations
  (`nodeAtPath`, `applyObject`, `clone`, name/path validation) are modelled
  from the specification, and each such definition is marked
  `Modelled from the spec:` in its doc comment.  Cloning is value copying,
  which is invisible for a pure tree.
-/

set_option maxHeartbeats 2000000

namespace CppConfigFramework

mutual

/-- A parsed JSON value (`QJsonValue`), including the `Undefined` type that
`QJsonObject::value` returns when a key is absent. -/
inductive JVal where
  | undefined : JVal
  | null : JVal
  | bool (b : Bool) : JVal
  | num (n : Int) : JVal
  | str (s : String) : JVal
  | arr (xs : JArr) : JVal
  | obj (ms : JMap) : JVal
  deriving DecidableEq

/-- Spine of a JSON array (`QJsonArray`). -/
inductive JArr where
  | nil : JArr
  | cons (hd : JVal) (tl : JArr) : JArr
  deriving DecidableEq

/-- Spine of a JSON object (`QJsonObject`): key/value pairs. -/
inductive JMap where
  | nil : JMap
  | cons (k : String) (v : JVal) (tl : JMap) : JMap
  deriving DecidableEq

end

/-- First binding of a key in a JSON object. -/
def JMap.lookup : JMap → String → Option JVal
  | .nil, _ => none
  | .cons k v tl, key => if k = key then some v else tl.lookup key

/-- `QJsonObject::contains`. -/
def JMap.containsKey (m : JMap) (key : String) : Bool :=
  (m.lookup key).isSome

/-- `QJsonObject::value`: the value of the key, `Undefined` when absent. -/
def JMap.value (m : JMap) (key : String) : JVal :=
  (m.lookup key).getD .undefined

/-- `QJsonValue::isNull`. -/
def JVal.isNull : JVal → Bool
  | .null => true
  | _ => false

/-- `QJsonValue::isObject`. -/
def JVal.isObject : JVal → Bool
  | .obj _ => true
  | _ => false

mutual

/-- The config node (`ConfigNode`): a tagged variant over the seven kinds.
The `value` payload is the raw JSON value stored opaquely (`QVariant`).
The `object` member map is modelled as an ordered association list (see the
separate hash-table model of `ConfigNodeData::ObjectNodeData` further below
for the storage order of the C++ `std::unordered_map`). -/
inductive ConfigNode where
  | null : ConfigNode
  | value (v : JVal) : ConfigNode
  | array (es : NodeList) : ConfigNode
  | object (ms : MemberMap) : ConfigNode
  | nodeReference (ref : String) : ConfigNode
  | derivedArray (es : NodeList) : ConfigNode
  | derivedObject (bases : List String) (config : ConfigNode) : ConfigNode
  deriving DecidableEq

/-- Spine of an `Array`/`DerivedArray` node's elements (`std::list<ConfigNode>`). -/
inductive NodeList where
  | nil : NodeList
  | cons (hd : ConfigNode) (tl : NodeList) : NodeList
  deriving DecidableEq

/-- Spine of an `Object` node's members. -/
inductive MemberMap where
  | nil : MemberMap
  | cons (k : String) (v : ConfigNode) (tl : MemberMap) : MemberMap
  deriving DecidableEq

end

/-- Number of elements. -/
def NodeList.length : NodeList → Nat
  | .nil => 0
  | .cons _ tl => tl.length + 1

/-- Element at an index. -/
def NodeList.get? : NodeList → Nat → Option ConfigNode
  | .nil, _ => none
  | .cons hd _, 0 => some hd
  | .cons _ tl, n + 1 => tl.get? n

/-- Replace the element at an index (no change when out of range). -/
def NodeList.set : NodeList → Nat → ConfigNode → NodeList
  | .nil, _, _ => .nil
  | .cons _ tl, 0, x => .cons x tl
  | .cons hd tl, n + 1, x => .cons hd (tl.set n x)

/-- Append an element at the end (`ConfigNode::appendElement`). -/
def NodeList.append : NodeList → ConfigNode → NodeList
  | .nil, x => .cons x .nil
  | .cons hd tl, x => .cons hd (tl.append x)

/-- Number of members. -/
def MemberMap.length : MemberMap → Nat
  | .nil => 0
  | .cons _ _ tl => tl.length + 1

/-- Member (key and value) at a position. -/
def MemberMap.get? : MemberMap → Nat → Option (String × ConfigNode)
  | .nil, _ => none
  | .cons k v _, 0 => some (k, v)
  | .cons _ _ tl, n + 1 => tl.get? n

/-- Replace the value at a position, keeping the key (no change when out of
range). -/
def MemberMap.set : MemberMap → Nat → ConfigNode → MemberMap
  | .nil, _, _ => .nil
  | .cons k _ tl, 0, x => .cons k x tl
  | .cons k v tl, n + 1, x => .cons k v (tl.set n x)

/-- Value of the first member with the given name (`ConfigNode::member`). -/
def MemberMap.find : MemberMap → String → Option ConfigNode
  | .nil, _ => none
  | .cons k v tl, key => if k = key then some v else tl.find key

/-- Position of the first member with the given name. -/
def MemberMap.findIdx : MemberMap → String → Option Nat
  | .nil, _ => none
  | .cons k _ tl, key =>
      if k = key then some 0 else (tl.findIdx key).map (· + 1)

/-- `ConfigNode::containsMember`. -/
def MemberMap.containsMember (m : MemberMap) (key : String) : Bool :=
  (m.find key).isSome

/-- Append a member at the end. -/
def MemberMap.append : MemberMap → String → ConfigNode → MemberMap
  | .nil, k, x => .cons k x .nil
  | .cons k' v tl, k, x => .cons k' v (tl.append k x)

/-- Replace the value of the first member with the given name, in place
(position preserved); no change when the name is absent. -/
def MemberMap.replaceValue : MemberMap → String → ConfigNode → MemberMap
  | .nil, _, _ => .nil
  | .cons k' v tl, k, x =>
      if k' = k then .cons k' x tl else .cons k' v (tl.replaceValue k x)

/-- Keys, in storage order. -/
def MemberMap.keys : MemberMap → List String
  | .nil => []
  | .cons k _ tl => k :: tl.keys

/-! ## Path model

`ConfigNode`'s path helpers are declared in the missing `ConfigNode.cpp`;
they are modelled from the spec (§3.1, §4.1, §4.2). -/

/-- Modelled from the spec: `ConfigNode::validateNodeName`.  A name is
non-empty and matches `[A-Za-z_][A-Za-z0-9_]*`. -/
def validateNodeName (s : String) : Bool :=
  match s.data with
  | [] => false
  | c :: cs => (c.isAlpha || c = '_') && cs.all (fun d => d.isAlphanum || d = '_')

/-- Modelled from the spec: `ConfigNode::isAbsoluteNodePath`: the path begins
with `/`. -/
def isAbsoluteNodePath (p : String) : Bool :=
  match p.data with
  | '/' :: _ => true
  | _ => false

/-- Split a character list on `/`, keeping empty pieces (the behaviour of
`QString::split`). -/
def splitSlashes (cs : List Char) : List String :=
  match cs with
  | [] => [""]
  | '/' :: rest => "" :: splitSlashes rest
  | c :: rest =>
      match splitSlashes rest with
      | [] => [String.mk [c]]
      | piece :: more => String.mk (c :: piece.data) :: more

/-- The segments of a path: the non-empty pieces between slashes.  For the
root path `/` this is the empty list. -/
def pathSegments (p : String) : List String :=
  (splitSlashes p.data).filter (fun s => s ≠ "")

/-- Modelled from the spec: `ConfigNode::validateNodePath` on a single path
(§4.1): the single character `/` is valid; an absolute path must consist of
valid names with no empty or trailing segment; a relative path must be a
non-empty sequence of valid names. -/
def validateNodePath (p : String) : Bool :=
  if p = "/" then true
  else
    match splitSlashes p.data with
    | "" :: segs => segs ≠ [] && segs.all validateNodeName
    | segs => segs ≠ [] && segs.all validateNodeName

/-- Join a relative reference's segments onto a current path's segments,
resolving `..` segments, which may not climb above the root; each ordinary
segment must be a valid name. -/
def joinRelative : List String → List String → Bool
  | _, [] => true
  | cur, seg :: rest =>
      if seg = ".." then
        match cur with
        | [] => false
        | _ :: _ => joinRelative cur.dropLast rest
      else validateNodeName seg && joinRelative (cur ++ [seg]) rest

/-- Modelled from the spec: the two-argument
`ConfigNode::validateNodePath(reference, currentPath)` (§4.1,
`validate_reference`): an absolute reference must itself validate; a relative
reference is joined onto the current path, resolving leading `..` segments,
which may not climb above the root. -/
def validateNodePathAt (ref currentPath : String) : Bool :=
  if isAbsoluteNodePath ref then validateNodePath ref
  else ref ≠ "" && joinRelative (pathSegments currentPath) (splitSlashes ref.data)

/-- Modelled from the spec: `ConfigNode::appendNodeToPath` (§3.1): appending
a name inserts exactly one `/`; appending to `/` does not double it. -/
def appendNodeToPath (p name : String) : String :=
  if p = "/" then p ++ name else p ++ "/" ++ name

/-! ## Tree addressing

A node's identity is its position: the list of child indices from the root.
An object member's index is its position in the member map, an array or
derived-array element's index is its position in the element list. -/

/-- The node at a position. -/
def nodeAt : ConfigNode → List Nat → Option ConfigNode
  | n, [] => some n
  | .object ms, i :: p =>
      match ms.get? i with
      | some kv => nodeAt kv.2 p
      | none => none
  | .array es, i :: p =>
      match es.get? i with
      | some c => nodeAt c p
      | none => none
  | .derivedArray es, i :: p =>
      match es.get? i with
      | some c => nodeAt c p
      | none => none
  | _, _ :: _ => none

/-- Replace the node at a position (the C++ in-place assignment `*node = x`);
no change when the position does not exist. -/
def replaceAt : ConfigNode → List Nat → ConfigNode → ConfigNode
  | _, [], x => x
  | .object ms, i :: p, x =>
      match ms.get? i with
      | some kv => .object (ms.set i (replaceAt kv.2 p x))
      | none => .object ms
  | .array es, i :: p, x =>
      match es.get? i with
      | some c => .array (es.set i (replaceAt c p x))
      | none => .array es
  | .derivedArray es, i :: p, x =>
      match es.get? i with
      | some c => .derivedArray (es.set i (replaceAt c p x))
      | none => .derivedArray es
  | n, _ :: _, _ => n

/-! ## Node lookup through parent pointers

`ConfigNode::nodeAtPath` resolves a path string by walking parent pointers
(for `/`-rooted paths and `..` segments) and object members.  A walking
state is a stack of `(tree, position)` frames: the head frame is the current
tree and position; when the position of the head frame is the tree's root,
the parent is the anchor position recorded in the next frame (the parent
pointer `setParent` gave to a detached clone).  For a node inside a single
tree the stack is a single frame. -/

/-- A stack of `(tree, position)` frames; the head is the current location. -/
abbrev WalkStack := List (ConfigNode × List Nat)

/-- The parent location: one step up inside the head frame, or the anchor
frame when the head is at its tree's root (`ConfigNode::parent`). -/
def stackParent : WalkStack → Option WalkStack
  | [] => none
  | (t, p) :: rest =>
      match p with
      | [] => match rest with
              | [] => none
              | _ :: _ => some rest
      | _ :: _ => some ((t, p.dropLast) :: rest)

/-- The node at the current location. -/
def stackNode : WalkStack → Option ConfigNode
  | [] => none
  | (t, p) :: _ => nodeAt t p

/-- Descend into the object member with the given name.  Lookup descends only
through `Object` members (spec §4.2). -/
def stackChild (st : WalkStack) (key : String) : Option WalkStack :=
  match st with
  | [] => none
  | (t, p) :: rest =>
      match nodeAt t p with
      | some (.object ms) =>
          match ms.findIdx key with
          | some i => some ((t, p ++ [i]) :: rest)
          | none => none
      | _ => none

/-- The root location: the bottom frame's tree at its root (walking parent
pointers all the way up). -/
def stackRoot : WalkStack → WalkStack
  | [] => []
  | [(t, _)] => [(t, [])]
  | _ :: rest => stackRoot rest

/-- Walk a list of path segments from a location: `..` ascends to the
parent, a name descends into an object member; the walk fails if any
segment misses. -/
def stackWalk : WalkStack → List String → Option WalkStack
  | st, [] => some st
  | st, seg :: rest =>
      if seg = ".." then
        match stackParent st with
        | some st' => stackWalk st' rest
        | none => none
      else
        match stackChild st seg with
        | some st' => stackWalk st' rest
        | none => none

/-- Modelled from the spec: `ConfigNode::nodeAtPath` (§4.2) from the location
given by the walk stack: an absolute path walks from the root, a relative
path from the current node; returns the addressed node or nothing. -/
def findRef (st : WalkStack) (ref : String) : Option ConfigNode :=
  let start := if isAbsoluteNodePath ref then stackRoot st else st
  match stackWalk start (pathSegments ref) with
  | some st' => stackNode st'
  | none => none

/-! ## `isFullyResolved` (from `ConfigReaderImpl.cpp`) -/

mutual

/-- `ConfigReader::Impl::isFullyResolved`: `Null`/`Value` are fully resolved,
`Array`/`Object` when every child is, the reference kinds never. -/
def isFullyResolved : ConfigNode → Bool
  | .null => true
  | .value _ => true
  | .array es => elemsFullyResolved es
  | .object ms => membersFullyResolved ms
  | .nodeReference _ => false
  | .derivedArray _ => false
  | .derivedObject _ _ => false

/-- All elements fully resolved. -/
def elemsFullyResolved : NodeList → Bool
  | .nil => true
  | .cons hd tl => isFullyResolved hd && elemsFullyResolved tl

/-- All member values fully resolved. -/
def membersFullyResolved : MemberMap → Bool
  | .nil => true
  | .cons _ v tl => isFullyResolved v && membersFullyResolved tl

end

/-! ## Merge engine (`ConfigNode::applyObject`) -/

/-- Merge one source member into the destination member map: a new name is
appended at the end, an existing name has its value replaced in place,
preserving its position.  The merged value is precomputed by the caller. -/
def mergeMember (dm : MemberMap) (k : String) (newV : ConfigNode) : MemberMap :=
  if dm.containsMember k then dm.replaceValue k newV else dm.append k newV

mutual

/-- Modelled from the spec: the recursive merge of `ConfigNode::applyObject`
(§4.3).  For a source member `k`: absent from the destination ⇒ insert a
clone; both sides `Object` ⇒ recurse; otherwise the source value replaces the
destination value wholesale. -/
def applyNode : ConfigNode → ConfigNode → ConfigNode
  | dst, .object sm =>
      match dst with
      | .object dm => .object (applyMap dm sm)
      | _ => .object sm
  | _, src => src

/-- Fold the source members, in order, into the destination member map. -/
def applyMap (dm : MemberMap) : MemberMap → MemberMap
  | .nil => dm
  | .cons k v sm =>
      let newV :=
        match dm.find k with
        | some old => applyNode old v
        | none => v
      applyMap (mergeMember dm k newV) sm

end

/-- Modelled from the spec: `ConfigNode::applyObject` (§4.3 with the §9 note).
The precondition is that both sides are `Object` kind; per §9 a `Null` source
short-circuits successfully without changing the destination (which is how a
null `config` member is benignly merged onto the include aggregate). -/
def applyObject : ConfigNode → ConfigNode → Option ConfigNode
  | .object dm, .object sm => some (.object (applyMap dm sm))
  | .object dm, .null => some (.object dm)
  | _, _ => none

/-! ## The resolver (`ConfigReader::Impl::resolveReferences` and friends)

The resolver is embedded as a family of functions mirroring the C++ ones.
A call resolves the node `node` sitting at position `loc` of the local tree
`tree`; `frames` are the enclosing `(tree, anchor)` frames of detached
clones (empty for the main tree).  Each function returns the updated local
tree together with the resolution result.  The invariant maintained by the
callers is `nodeAt tree loc = some node`: the C++ code reads the node
through a live pointer, and sibling resolutions never touch it. -/

/-- `ConfigReader::Impl::ReferenceResolutionResult`. -/
inductive RRes where
  | resolved : RRes
  | unresolved : RRes
  | error : RRes
  deriving DecidableEq

/-- Outcome of folding a derived object's bases. -/
inductive BasesRes where
  | okB (acc : ConfigNode) : BasesRes
  | unresolvedB : BasesRes
  | errorB : BasesRes
  deriving DecidableEq

/-- `ConfigReader::Impl::resolveNodeReference`: a reference node must have a
parent (else `Error`); the target is looked up with the parent's
`nodeAtPath`; a missing target is `Unresolved`; otherwise the node is
replaced in place by a clone of the target re-parented to the former parent,
and the outcome is `Resolved` iff the clone is fully resolved. -/
def resolveNodeReference (frames : WalkStack) (tree : ConfigNode)
    (loc : List Nat) (ref : String) : ConfigNode × RRes :=
  match stackParent ((tree, loc) :: frames) with
  | none => (tree, .error)
  | some pstack =>
      match findRef pstack ref with
      | none => (tree, .unresolved)
      | some target =>
          (replaceAt tree loc target,
           if isFullyResolved target then .resolved else .unresolved)

/-- The base-path fold of `ConfigReader::Impl::resolveDerivedObjectReferences`:
each base is looked up from the parent; a missing or not fully resolved base
is `Unresolved`; otherwise the base is applied onto the accumulator (failure
of `applyObject` is `Error`). -/
def applyBases (pstack : WalkStack) : List String → ConfigNode → BasesRes
  | [], acc => .okB acc
  | base :: rest, acc =>
      match findRef pstack base with
      | none => .unresolvedB
      | some baseNode =>
          if isFullyResolved baseNode then
            match applyObject acc baseNode with
            | some acc' => applyBases pstack rest acc'
            | none => .errorB
          else .unresolvedB

/-- The tail of `resolveDerivedObjectReferences`: apply a non-null config
override onto the accumulator and replace the node in place by the
accumulator (`Resolved`); a failing `applyObject` is `Error`. -/
def finishDerivedObject (tree : ConfigNode) (loc : List Nat)
    (acc config : ConfigNode) : ConfigNode × RRes :=
  match config with
  | .null => (replaceAt tree loc acc, .resolved)
  | _ =>
      match applyObject acc config with
      | some acc' => (replaceAt tree loc acc', .resolved)
      | none => (tree, .error)

mutual

/-- `ConfigReader::Impl::resolveReferences`: dispatch on the node kind. -/
def resolveReferences (frames : WalkStack) (tree : ConfigNode)
    (loc : List Nat) : ConfigNode → ConfigNode × RRes
  | .null => (tree, .resolved)
  | .value _ => (tree, .resolved)
  | .array es => resolveArrayReferences frames tree loc 0 es .resolved
  | .object ms => resolveObjectReferences frames tree loc 0 ms .resolved
  | .nodeReference ref => resolveNodeReference frames tree loc ref
  | .derivedArray es =>
      match stackParent ((tree, loc) :: frames) with
      | none => (tree, .error)
      | some _ =>
          match resolveArrayReferences frames tree loc 0 es .resolved with
          | (tree1, .resolved) =>
              match nodeAt tree1 loc with
              | some (.derivedArray es1) =>
                  (replaceAt tree1 loc (.array es1), .resolved)
              | _ => (tree1, .error)
          | (tree1, r) => (tree1, r)
  | .derivedObject bases config =>
      match stackParent ((tree, loc) :: frames) with
      | none => (tree, .error)
      | some pstack =>
          match applyBases pstack bases (.object .nil) with
          | .errorB => (tree, .error)
          | .unresolvedB => (tree, .unresolved)
          | .okB acc =>
              if isFullyResolved config then
                finishDerivedObject tree loc acc config
              else
                match resolveReferences pstack config [] config with
                | (config1, .resolved) =>
                    finishDerivedObject tree loc acc config1
                | (config1, .unresolved) =>
                    (replaceAt tree loc (.derivedObject bases config1),
                     .unresolved)
                | (_, .error) => (tree, .error)

/-- The element loop shared by `resolveArrayReferences` and the element pass
of `resolveDerivedArrayReferences`: resolve each element in order (the
element at index `i` lives at `loc ++ [i]`); an `Error` aborts immediately,
an `Unresolved` element makes the aggregate `Unresolved`. -/
def resolveArrayReferences (frames : WalkStack) (tree : ConfigNode)
    (loc : List Nat) (i : Nat) : NodeList → RRes → ConfigNode × RRes
  | .nil, acc => (tree, acc)
  | .cons e tl, acc =>
      match resolveReferences frames tree (loc ++ [i]) e with
      | (tree1, .resolved) => resolveArrayReferences frames tree1 loc (i + 1) tl acc
      | (tree1, .unresolved) =>
          resolveArrayReferences frames tree1 loc (i + 1) tl .unresolved
      | (tree1, .error) => (tree1, .error)

/-- `ConfigReader::Impl::resolveObjectReferences`: resolve each member in
order (the member at position `i` lives at `loc ++ [i]`); an `Error` aborts
immediately, an `Unresolved` member makes the aggregate `Unresolved`. -/
def resolveObjectReferences (frames : WalkStack) (tree : ConfigNode)
    (loc : List Nat) (i : Nat) : MemberMap → RRes → ConfigNode × RRes
  | .nil, acc => (tree, acc)
  | .cons _ v tl, acc =>
      match resolveReferences frames tree (loc ++ [i]) v with
      | (tree1, .resolved) => resolveObjectReferences frames tree1 loc (i + 1) tl acc
      | (tree1, .unresolved) =>
          resolveObjectReferences frames tree1 loc (i + 1) tl .unresolved
      | (tree1, .error) => (tree1, .error)

end

/-- One resolver pass over the whole tree, as invoked by
`ConfigReader::Impl::read` on the complete config root. -/
def resolvePass (root : ConfigNode) : ConfigNode × RRes :=
  resolveReferences [] root [] root

/-- The default of `m_referenceResolutionMaxCycles`, set by the
`ConfigReader::Impl` constructor. -/
def referenceResolutionMaxCyclesDefault : Nat := 100

/-- `ConfigReader::Impl::setReferenceResolutionMaxCycles`: the value is
asserted to be bigger than zero. -/
def setReferenceResolutionMaxCycles (n : Nat) : Option Nat :=
  if 0 < n then some n else none

/-- Error outcomes of the resolution loop in `ConfigReader::Impl::read`. -/
inductive ReadLoopErr where
  | resolveError : ReadLoopErr
  | notFullyResolved : ReadLoopErr
  deriving DecidableEq

/-- The resolution loop of `ConfigReader::Impl::read` (lines 192–225): run
passes while the result is `Unresolved` and cycles remain; the first
`Resolved` pass returns the tree, the first `Error` pass aborts, exhausting
the cycles still `Unresolved` is the "failed to fully resolve" error.  The
second component counts the passes that were run. -/
def resolveLoop : Nat → ConfigNode → Except ReadLoopErr ConfigNode × Nat
  | 0, _ => (.error .notFullyResolved, 0)
  | n + 1, root =>
      match resolvePass root with
      | (root1, .resolved) => (.ok root1, 1)
      | (root1, .unresolved) =>
          match resolveLoop n root1 with
          | (res, c) => (res, c + 1)
      | (_, .error) => (.error .resolveError, 1)

/-- The tree after `k` resolver passes (ignoring their results). -/
def passState (root : ConfigNode) : Nat → ConfigNode
  | 0 => root
  | k + 1 => (resolvePass (passState root k)).1

/-! ## JSON reader (`ConfigReader::Impl::readJson*`) -/

/-- `ConfigReader::Impl::hasDecorator`: the member name matches `^[&#]`. -/
def hasDecorator (memberName : String) : Bool :=
  match memberName.data with
  | '&' :: _ => true
  | '#' :: _ => true
  | _ => false

/-- Split a member name into its decorator (`\x00` when none) and the name
with the decorator removed, as `readJsonObject` does. -/
def stripDecorator (memberName : String) : Char × String :=
  match memberName.data with
  | '&' :: rest => ('&', String.mk rest)
  | '#' :: rest => ('#', String.mk rest)
  | _ => (Char.ofNat 0, memberName)

/-- `ConfigReader::Impl::readReferenceNode`: validate the reference against
the current path and store the raw reference string. -/
def readReferenceNode (nodeRef currentNodePath : String) : Option ConfigNode :=
  if validateNodePathAt nodeRef currentNodePath then
    some (.nodeReference nodeRef)
  else none

/-- Collect the strings of the `base` member's JSON array; any non-string
item fails. -/
def collectBaseStrings : JArr → Option (List String)
  | .nil => some []
  | .cons (.str s) tl => (collectBaseStrings tl).map (s :: ·)
  | .cons _ _ => none

/-- The `base` member extraction of
`ConfigReader::Impl::readDerivedObjectNode`: a missing `base` member fails;
a string is a single base; an array must consist of strings and be
non-empty. -/
def readDerivedObjectBases : JMap → Option (List String)
  | .nil => none
  | .cons k v tl =>
      if k = "base" then
        match v with
        | .str s => some [s]
        | .arr xs =>
            match collectBaseStrings xs with
            | some [] => none
            | some bases => some bases
            | none => none
        | _ => none
      else readDerivedObjectBases tl

mutual

/-- `ConfigReader::Impl::readJsonValue`: `null` reads as a `Null` node,
scalars as `Value` nodes carrying the raw value, arrays and objects
recursively; an `Undefined` value is an error. -/
def readJsonValue : JVal → String → Option ConfigNode
  | .undefined, _ => none
  | .null, _ => some .null
  | .bool b, _ => some (.value (.bool b))
  | .num n, _ => some (.value (.num n))
  | .str s, _ => some (.value (.str s))
  | .arr xs, currentNodePath =>
      match readJsonArrayElems xs currentNodePath 0 with
      | some es => some (.array es)
      | none => none
  | .obj ms, currentNodePath =>
      match readJsonObjectMembers ms currentNodePath .nil with
      | some acc => some (.object acc)
      | none => none

/-- The element loop of `ConfigReader::Impl::readJsonArray`; the element at
index `i` is read with path `current + "/" + i`. -/
def readJsonArrayElems : JArr → String → Nat → Option NodeList
  | .nil, _, _ => some .nil
  | .cons v tl, currentNodePath, i =>
      match readJsonValue v (appendNodeToPath currentNodePath (Nat.repr i)) with
      | some e =>
          match readJsonArrayElems tl currentNodePath (i + 1) with
          | some es => some (.cons e es)
          | none => none
      | none => none

/-- The member loop of `ConfigReader::Impl::readJsonObject`: strip the
decorator, validate the remaining name, reject a duplicate of an existing
member, then build the member node according to the decorator. -/
def readJsonObjectMembers : JMap → String → MemberMap → Option MemberMap
  | .nil, _, acc => some acc
  | .cons key v tl, currentNodePath, acc =>
      let dec := stripDecorator key
      if validateNodeName dec.2 then
        if acc.containsMember dec.2 then none
        else
          let memberNodePath := appendNodeToPath currentNodePath dec.2
          let memberNode :=
            if dec.1 = '#' then some (.value v)
            else if dec.1 = '&' then readAmpersandNode v memberNodePath
            else readJsonValue v memberNodePath
          match memberNode with
          | some node => readJsonObjectMembers tl currentNodePath (acc.append dec.2 node)
          | none => none
      else none

/-- The `&` decorator switch shared by `readJsonObject` and
`readDerivedArrayNode`: a string is a `NodeReference`, a JSON array a
`DerivedArray`, a JSON object a `DerivedObject`; any other type is an
error. -/
def readAmpersandNode : JVal → String → Option ConfigNode
  | .str s, currentNodePath => readReferenceNode s currentNodePath
  | .arr xs, currentNodePath =>
      match readDerivedArrayElems xs currentNodePath with
      | some es => some (.derivedArray es)
      | none => none
  | .obj ms, currentNodePath =>
      match readDerivedObjectBases ms with
      | some bases =>
          match readDerivedObjectConfigMember ms currentNodePath with
          | some config => some (.derivedObject bases config)
          | none => none
      | none => none
  | _, _ => none

/-- The element loop of `ConfigReader::Impl::readDerivedArrayNode`: each
item must be a single-member JSON object whose (optionally decorated) key is
`element`; the element value is read under the same decorator rules, at the
same current path. -/
def readDerivedArrayElems : JArr → String → Option NodeList
  | .nil, _ => some .nil
  | .cons (.obj (.cons key v .nil)) tl, currentNodePath =>
      let dec := stripDecorator key
      if dec.2 = "element" then
        let elementNode :=
          if dec.1 = '#' then some (.value v)
          else if dec.1 = '&' then readAmpersandNode v currentNodePath
          else readJsonValue v currentNodePath
        match elementNode with
        | some e =>
            match readDerivedArrayElems tl currentNodePath with
            | some es => some (.cons e es)
            | none => none
        | none => none
      else none
  | .cons _ _, _ => none

/-- The `config` member extraction of
`ConfigReader::Impl::readDerivedObjectNode`: absent or `null` gives a `Null`
override; a JSON object is read with the object-reading rules; any other
type is an error. -/
def readDerivedObjectConfigMember : JMap → String → Option ConfigNode
  | .nil, _ => some .null
  | .cons k v tl, currentNodePath =>
      if k = "config" then
        match v with
        | .null => some .null
        | .obj ms =>
            match readJsonObjectMembers ms currentNodePath .nil with
            | some acc => some (.object acc)
            | none => none
        | _ => none
      else readDerivedObjectConfigMember tl currentNodePath

end

/-- `ConfigReader::Impl::readJsonObject` (the wrapper around the member
loop). -/
def readJsonObject (ms : JMap) (currentNodePath : String) : Option ConfigNode :=
  match readJsonObjectMembers ms currentNodePath .nil with
  | some acc => some (.object acc)
  | none => none

/-- `ConfigReader::Impl::readConfigMember` (from `ConfigReaderImpl.cpp`):
a `null` value of the `config` member yields a `Null` node; otherwise the
value must be a JSON object, which is read via `readJsonObject` at path `/`.
Note that `QJsonObject::value` yields `Undefined` for an absent member, and
`Undefined` is not null, so an absent `config` member falls into the
not-an-object error branch. -/
def readConfigMember (rootObject : JMap) : Option ConfigNode :=
  let configValue := rootObject.value "config"
  if configValue.isNull then some .null
  else
    match configValue with
    | .obj ms => readJsonObject ms "/"
    | _ => none

/-! ## Transform (`ConfigReader::Impl::transformConfig`) -/

/-- The nested-object construction of `transformConfig`: validate each
destination name and nest a chain of `Object` nodes, placing the source
config at the leaf. -/
def buildDestination : List String → ConfigNode → Option ConfigNode
  | [], _ => none
  | [name], node =>
      if validateNodeName name then some (.object (.cons name node .nil))
      else none
  | name :: rest, node =>
      if validateNodeName name then
        match buildDestination rest node with
        | some inner => some (.object (.cons name inner .nil))
        | none => none
      else none

/-- `ConfigReader::Impl::transformConfig`: when source and destination are
both `/` the config is returned as is; otherwise the source subtree is
extracted by `nodeAtPath` (failure when missing) and, unless the destination
is `/`, wrapped in a chain of objects named by the destination path's
segments (`destination.mid(1).split('/')`). -/
def transformConfig (config : ConfigNode) (sourceNode destinationNode : String) :
    Option ConfigNode :=
  if sourceNode = "/" && destinationNode = "/" then some config
  else
    let sourceConfig :=
      if sourceNode = "/" then some config
      else findRef [(config, [])] sourceNode
    match sourceConfig with
    | none => none
    | some src =>
        if destinationNode = "/" then some src
        else buildDestination (splitSlashes (destinationNode.drop 1).data) src

/-! ## Include composer (`ConfigReader::Impl::read` / `readIncludesMember`)

File access, JSON parsing and working-directory resolution are surface I/O;
they are modelled by a map from file-path strings to parsed JSON documents.
The C++ include recursion has no depth bound (the source carries a
`TODO: check for an endless include loop?`); the model makes the recursion
depth explicit with a fuel argument, which the claims instantiate with
enough fuel for their documents. -/

/-- A parsed filesystem: file path → parsed JSON document. -/
abbrev FileSystem := List (String × JVal)

/-- Look up a file (existence check plus parse). -/
def FileSystem.lookup : FileSystem → String → Option JVal
  | [], _ => none
  | (p, v) :: tl, path => if p = path then some v else FileSystem.lookup tl path

/-- The `type` extraction for one include entry
(`ConfigReaderImpl.cpp` lines 270–292): default `"CppConfigFramework"`;
a present `null` keeps the default; a present string replaces it; any other
present value is an error. -/
def readIncludeItemType (includeObject : JMap) : Option String :=
  if includeObject.containsKey "type" then
    match includeObject.value "type" with
    | .null => some "CppConfigFramework"
    | .str s => some s
    | _ => none
  else some "CppConfigFramework"

/-- The full `type` check for one include entry (lines 270–300): the
extracted type must equal `"CppConfigFramework"`. -/
def includeItemTypeAccepted (includeObject : JMap) : Bool :=
  match readIncludeItemType includeObject with
  | some t => t = "CppConfigFramework"
  | none => false

/-- The `file_path` extraction for one include entry: the member is required
and must be a string. -/
def readIncludeItemFilePath (includeObject : JMap) : Option String :=
  match includeObject.value "file_path" with
  | .str s => some s
  | _ => none

/-- The `source_node` / `destination_node` extraction for one include entry:
default `/`; a present member must be a string. -/
def readIncludeItemNode (includeObject : JMap) (key : String) : Option String :=
  if includeObject.containsKey key then
    match includeObject.value key with
    | .str s => some s
    | _ => none
  else some "/"

/-- The entry loop of `readIncludesMember`: each entry must be a JSON
object; its type must be accepted, its `file_path` present, its
`source_node`/`destination_node` strings when present; the included file is
read recursively (`rd` is the recursive `read` at the remaining include
depth) and its result applied onto the running aggregate. -/
def readIncludesList (rd : String → String → String → Option ConfigNode) :
    JArr → ConfigNode → Option ConfigNode
  | .nil, acc => some acc
  | .cons (.obj includeObject) tl, acc =>
      if includeItemTypeAccepted includeObject then
        match readIncludeItemFilePath includeObject with
        | none => none
        | some filePath =>
            match readIncludeItemNode includeObject "source_node" with
            | none => none
            | some sourceNode =>
                match readIncludeItemNode includeObject "destination_node" with
                | none => none
                | some destinationNode =>
                    match rd filePath sourceNode destinationNode with
                    | none => none
                    | some config =>
                        match applyObject acc config with
                        | some acc1 => readIncludesList rd tl acc1
                        | none => none
      else none
  | .cons _ _, _ => none

/-- `ConfigReader::Impl::readIncludesMember` (from `ConfigReaderImpl.cpp`):
an absent or null `includes` member gives an empty `Object` aggregate;
otherwise the member must be a JSON array of include entries. -/
def readIncludesMember (rd : String → String → String → Option ConfigNode)
    (rootObject : JMap) : Option ConfigNode :=
  let includesValue := rootObject.value "includes"
  if includesValue.isNull || includesValue = .undefined then some (.object .nil)
  else
    match includesValue with
    | .arr xs => readIncludesList rd xs (.object .nil)
    | _ => none

/-- `ConfigReader::Impl::read` (from `ConfigReaderImpl.cpp`): validate the
source and destination node paths, locate and parse the file (whose top
value must be an object), read the `includes` member into an aggregate,
read the `config` member and apply it onto the aggregate, resolve
references with the cycle-bounded loop, and transform the result.  `fuel`
bounds the include recursion depth. -/
def read (fs : FileSystem) : Nat → String → String → String → Option ConfigNode
  | 0, _, _, _ => none
  | fuel + 1, filePath, sourceNode, destinationNode =>
      if !(isAbsoluteNodePath sourceNode && validateNodePath sourceNode) then none
      else if !(isAbsoluteNodePath destinationNode && validateNodePath destinationNode) then
        none
      else
        match fs.lookup filePath with
        | none => none
        | some (.obj rootObject) =>
            match readIncludesMember (fun fp s d => read fs fuel fp s d) rootObject with
            | none => none
            | some completeConfig =>
                match readConfigMember rootObject with
                | none => none
                | some configMember =>
                    match applyObject completeConfig configMember with
                    | none => none
                    | some fullConfig =>
                        match resolveLoop referenceResolutionMaxCyclesDefault fullConfig with
                        | (.ok resolvedConfig, _) =>
                            transformConfig resolvedConfig sourceNode destinationNode
                        | (.error _, _) => none
        | some _ => none

/-! ## Factory (`ConfigReaderFactory.cpp`)

Readers are opaque heap objects; they are modelled by handles (`Nat`), with
a null `unique_ptr` as `none`.  The registry `m_configReaders` maps type
strings to readers; its map is modelled as an association list with
insert-or-assign semantics (`m_configReaders[type] = …`). -/

/-- The registry of a `ConfigReaderFactory`. -/
abbrev ReaderRegistry := List (String × Nat)

/-- First binding of a type string in the registry
(`m_configReaders.find(type)`). -/
def ReaderRegistry.find : ReaderRegistry → String → Option Nat
  | [], _ => none
  | (t, r) :: tl, type' => if t = type' then some r else ReaderRegistry.find tl type'

/-- Insert-or-assign (`m_configReaders[type] = std::move(configReader)`). -/
def ReaderRegistry.store : ReaderRegistry → String → Nat → ReaderRegistry
  | [], type', r => [(type', r)]
  | (t, r0) :: tl, type', r =>
      if t = type' then (t, r) :: tl else (t, r0) :: ReaderRegistry.store tl type' r

/-- `ConfigReaderFactory::registerConfigReader`: an empty type string or a
null reader is rejected (`false`, registry unchanged); otherwise the reader
is stored under the type, replacing any previous one, and `true` is
returned. -/
def registerConfigReader (reg : ReaderRegistry) (type' : String)
    (configReader : Option Nat) : ReaderRegistry × Bool :=
  if type' = "" || configReader = none then (reg, false)
  else
    match configReader with
    | some r => (reg.store type' r, true)
    | none => (reg, false)

/-- The handle of the `ConfigReader` instance the factory constructor
creates. -/
def defaultConfigReaderHandle : Nat := 0

/-- `ConfigReaderFactory::ConfigReaderFactory`: the constructor registers a
`ConfigReader` under the type `"CppConfigFramework"`. -/
def configReaderFactoryInit : ReaderRegistry :=
  (registerConfigReader [] "CppConfigFramework" (some defaultConfigReaderHandle)).1

/-- The dispatch of `ConfigReaderFactory::readConfig`: find the reader
registered for the type string (an unknown type is the "Unsupported
configuration type" error). -/
def readConfigDispatch (reg : ReaderRegistry) (type' : String) : Option Nat :=
  reg.find type'

/-! ## Storage order of `Object` members (`ConfigNodeData.hpp`)

`ConfigNodeData::ObjectNodeData` is
`std::unordered_map<QString, ConfigNode, StringHashCalculator>`:
a hash table.  The model is a standard chained hash table: `bucketCount`
buckets, a key lives in the bucket its hash selects, iteration visits the
buckets in index order.  `StringHashCalculator`'s implementation is not in
the sources, so the hash is a parameter. -/

/-- The buckets of a hash table holding an object's members. -/
abbrev ObjectBuckets := List (List (String × ConfigNode))

/-- Insert a chain entry: an existing key has its mapped value assigned in
place (the element is not moved); a new key is linked into the chain. -/
def chainStore : List (String × ConfigNode) → String → ConfigNode →
    List (String × ConfigNode)
  | [], k, v => [(k, v)]
  | (k0, v0) :: tl, k, v =>
      if k0 = k then (k0, v) :: tl else (k0, v0) :: chainStore tl k v

/-- `unorderedMapStore h buckets k v`: store the member `k ↦ v` in the
bucket selected by `h k` modulo the bucket count. -/
def unorderedMapStore (h : String → Nat) (buckets : ObjectBuckets)
    (k : String) (v : ConfigNode) : ObjectBuckets :=
  let i := h k % buckets.length
  buckets.set i (chainStore (buckets.getD i []) k v)

/-- Iteration order of the hash table: the buckets, in index order. -/
def unorderedMapIter (buckets : ObjectBuckets) : List (String × ConfigNode) :=
  buckets.flatten

/-! ## Auxiliary definitions used by the statements -/

/-- Descend from a node through object members by name (the name-path view
of `nodeAtPath` for paths without `..`). -/
def memberPath : ConfigNode → List String → Option ConfigNode
  | n, [] => some n
  | .object ms, k :: rest =>
      match ms.find k with
      | some v => memberPath v rest
      | none => none
  | _, _ :: _ => none

/-- No two members share a name. -/
def keysNodup : MemberMap → Bool
  | .nil => true
  | .cons k _ tl => !tl.containsMember k && keysNodup tl

mutual

/-- Every object member map in the tree has pairwise distinct member names —
the invariant of the C++ member storage, which is a map keyed by name. -/
def wfKeys : ConfigNode → Bool
  | .null => true
  | .value _ => true
  | .array es => wfKeysElems es
  | .object ms => keysNodup ms && wfKeysMembers ms
  | .nodeReference _ => true
  | .derivedArray es => wfKeysElems es
  | .derivedObject _ config => wfKeys config

/-- `wfKeys` on every element. -/
def wfKeysElems : NodeList → Bool
  | .nil => true
  | .cons hd tl => wfKeys hd && wfKeysElems tl

/-- `wfKeys` on every member value. -/
def wfKeysMembers : MemberMap → Bool
  | .nil => true
  | .cons _ v tl => wfKeys v && wfKeysMembers tl

end

/-- Rebuild an `Array` (`true`) or `DerivedArray` (`false`) node from its
element list. -/
def elemContainer : Bool → NodeList → ConfigNode
  | true, es => .array es
  | false, es => .derivedArray es

/-- The stripped member names of a JSON object, in order. -/
def strippedNames : JMap → List String
  | .nil => []
  | .cons k _ tl => (stripDecorator k).2 :: strippedNames tl

/-! ### Concrete documents used as witnesses and counterexamples -/

/-- A document whose config is `{"&x": "/x"}`: a self-referential node
reference. -/
def selfRefRoot : ConfigNode := .object (.cons "x" (.nodeReference "/x") .nil)

/-- A document whose config is `{"&x": "/y", "&y": "/x"}`: two mutually
referential node references. -/
def mutualRefRoot : ConfigNode :=
  .object (.cons "x" (.nodeReference "/y") (.cons "y" (.nodeReference "/x") .nil))

/-- The parsed `base.json` of the include-override scenario:
`{"config": {"x": 1, "y": 2}}`. -/
def baseJson : JVal :=
  .obj (.cons "config" (.obj (.cons "x" (.num 1) (.cons "y" (.num 2) .nil))) .nil)

/-- The parsed `top.json` of the include-override scenario:
`{"includes": [{"file_path": "base.json"}], "config": {"y": 9, "z": 3}}`. -/
def topJson : JVal :=
  .obj (.cons "includes"
          (.arr (.cons (.obj (.cons "file_path" (.str "base.json") .nil)) .nil))
    (.cons "config" (.obj (.cons "y" (.num 9) (.cons "z" (.num 3) .nil))) .nil))

/-- The filesystem of the include-override scenario. -/
def includeFS : FileSystem := [("top.json", topJson), ("base.json", baseJson)]

/-- The parsed `nbase.json` of the nested-objects include scenario:
`{"config": {"a": {"m": 1}}}`. -/
def nestedBaseJson : JVal :=
  .obj (.cons "config" (.obj (.cons "a" (.obj (.cons "m" (.num 1) .nil)) .nil)) .nil)

/-- The parsed `ntop.json` of the nested-objects include scenario:
`{"includes": [{"file_path": "nbase.json"}], "config": {"a": {"n": 2}}}`. -/
def nestedTopJson : JVal :=
  .obj (.cons "includes"
          (.arr (.cons (.obj (.cons "file_path" (.str "nbase.json") .nil)) .nil))
    (.cons "config" (.obj (.cons "a" (.obj (.cons "n" (.num 2) .nil)) .nil)) .nil))

/-- The filesystem of the nested-objects include scenario. -/
def nestedFS : FileSystem := [("ntop.json", nestedTopJson), ("nbase.json", nestedBaseJson)]

/-- A config with bases `/a = {m: 1}` and `/b = {m: 2, n: 3}` and the
derived object `{base: ["/a", "/b"], config: {n: 7}}` at member `d`. -/
def derivedObjectRoot : ConfigNode :=
  .object (.cons "a" (.object (.cons "m" (.value (.num 1)) .nil))
    (.cons "b" (.object (.cons "m" (.value (.num 2)) (.cons "n" (.value (.num 3)) .nil)))
      (.cons "d" (.derivedObject ["/a", "/b"]
                    (.object (.cons "n" (.value (.num 7)) .nil))) .nil)))

/-- The tree `{"x": "/y" → "/x", "y": "/x"}` reached after one resolver pass
over `mutualRefRoot`: a fixed point of the pass. -/
def mutualRefStep : ConfigNode :=
  .object (.cons "x" (.nodeReference "/x") (.cons "y" (.nodeReference "/x") .nil))

/-- A config `{"a": 7, "&r": "/a"}` whose member `r` is a node reference. -/
def refDemoTree : ConfigNode :=
  .object (.cons "a" (.value (.num 7)) (.cons "r" (.nodeReference "/a") .nil))

/-- A demonstration hash for the member hash table: `"a"` hashes to bucket 1
of 2, every other key to bucket 0. -/
def demoHash (s : String) : Nat := if s = "a" then 1 else 0

/-- Two empty buckets, then member `a`, then member `b`, inserted in that
order. -/
def demoBuckets : ObjectBuckets :=
  unorderedMapStore demoHash
    (unorderedMapStore demoHash [[], []] "a" (.value (.num 1)))
    "b" (.value (.num 2))

/-! ## Lemmas: list spines -/

theorem nodeList_get_set_eq {es : NodeList} {i : Nat} {c : ConfigNode}
    (h : es.get? i = some c) (x : ConfigNode) : (es.set i x).get? i = some x := by
  induction i generalizing es with
  | zero =>
      cases es with
      | nil => simp [NodeList.get?] at h
      | cons hd tl => simp [NodeList.get?, NodeList.set]
  | succ n ih =>
      cases es with
      | nil => simp [NodeList.get?] at h
      | cons hd tl =>
          simpa [NodeList.get?, NodeList.set] using
            ih (by simpa [NodeList.get?] using h)

theorem nodeList_get_set_ne {i j : Nat} (es : NodeList) (h : j ≠ i)
    (x : ConfigNode) : (es.set i x).get? j = es.get? j := by
  induction i generalizing es j with
  | zero =>
      cases es with
      | nil => simp [NodeList.set]
      | cons hd tl =>
          cases j with
          | zero => exact absurd rfl h
          | succ m => simp [NodeList.get?, NodeList.set]
  | succ n ih =>
      cases es with
      | nil => simp [NodeList.set]
      | cons hd tl =>
          cases j with
          | zero => simp [NodeList.get?, NodeList.set]
          | succ m =>
              simpa [NodeList.get?, NodeList.set] using
                ih tl (fun hh => h (by simp [hh]))

theorem nodeList_set_set (es : NodeList) (i : Nat) (x y : ConfigNode) :
    (es.set i x).set i y = es.set i y := by
  induction i generalizing es with
  | zero => cases es <;> simp [NodeList.set]
  | succ n ih => cases es <;> simp [NodeList.set, ih]

theorem nodeList_length_set (es : NodeList) (i : Nat) (x : ConfigNode) :
    (es.set i x).length = es.length := by
  induction i generalizing es with
  | zero => cases es <;> simp [NodeList.set, NodeList.length]
  | succ n ih => cases es <;> simp [NodeList.set, NodeList.length, ih]

theorem memberMap_get_set_eq {ms : MemberMap} {i : Nat} {kv : String × ConfigNode}
    (h : ms.get? i = some kv) (x : ConfigNode) :
    (ms.set i x).get? i = some (kv.1, x) := by
  induction i generalizing ms with
  | zero =>
      cases ms with
      | nil => simp [MemberMap.get?] at h
      | cons k v tl =>
          simp [MemberMap.get?] at h
          simp [MemberMap.get?, MemberMap.set, h.symm]
  | succ n ih =>
      cases ms with
      | nil => simp [MemberMap.get?] at h
      | cons k v tl =>
          simpa [MemberMap.get?, MemberMap.set] using
            ih (by simpa [MemberMap.get?] using h)

theorem memberMap_get_set_ne {i j : Nat} (ms : MemberMap) (h : j ≠ i)
    (x : ConfigNode) : (ms.set i x).get? j = ms.get? j := by
  induction i generalizing ms j with
  | zero =>
      cases ms with
      | nil => simp [MemberMap.set]
      | cons k v tl =>
          cases j with
          | zero => exact absurd rfl h
          | succ m => simp [MemberMap.get?, MemberMap.set]
  | succ n ih =>
      cases ms with
      | nil => simp [MemberMap.set]
      | cons k v tl =>
          cases j with
          | zero => simp [MemberMap.get?, MemberMap.set]
          | succ m =>
              simpa [MemberMap.get?, MemberMap.set] using
                ih tl (fun hh => h (by simp [hh]))

theorem memberMap_set_set (ms : MemberMap) (i : Nat) (x y : ConfigNode) :
    (ms.set i x).set i y = ms.set i y := by
  induction i generalizing ms with
  | zero => cases ms <;> simp [MemberMap.set]
  | succ n ih => cases ms <;> simp [MemberMap.set, ih]

theorem memberMap_length_set (ms : MemberMap) (i : Nat) (x : ConfigNode) :
    (ms.set i x).length = ms.length := by
  induction i generalizing ms with
  | zero => cases ms <;> simp [MemberMap.set, MemberMap.length]
  | succ n ih => cases ms <;> simp [MemberMap.set, MemberMap.length, ih]

/-! ## Lemmas: `nodeAt` / `replaceAt` algebra -/

theorem nodeAt_replaceAt_self {tree : ConfigNode} {loc : List Nat} {n : ConfigNode}
    (h : nodeAt tree loc = some n) (x : ConfigNode) :
    nodeAt (replaceAt tree loc x) loc = some x := by
  induction loc generalizing tree with
  | nil => simp [nodeAt, replaceAt]
  | cons i p ih =>
      cases tree with
      | object ms =>
          simp only [nodeAt] at h
          match hg : ms.get? i with
          | some kv =>
              rw [hg] at h
              simp only [replaceAt, hg, nodeAt, memberMap_get_set_eq hg]
              exact ih h
          | none => rw [hg] at h; exact absurd h (by simp)
      | array es =>
          simp only [nodeAt] at h
          match hg : es.get? i with
          | some c =>
              rw [hg] at h
              simp only [replaceAt, hg, nodeAt, nodeList_get_set_eq hg]
              exact ih h
          | none => rw [hg] at h; exact absurd h (by simp)
      | derivedArray es =>
          simp only [nodeAt] at h
          match hg : es.get? i with
          | some c =>
              rw [hg] at h
              simp only [replaceAt, hg, nodeAt, nodeList_get_set_eq hg]
              exact ih h
          | none => rw [hg] at h; exact absurd h (by simp)
      | null => simp [nodeAt] at h
      | value v => simp [nodeAt] at h
      | nodeReference r => simp [nodeAt] at h
      | derivedObject b c => simp [nodeAt] at h

theorem replaceAt_append {tree : ConfigNode} {loc : List Nat} {n : ConfigNode}
    (h : nodeAt tree loc = some n) (ext : List Nat) (x : ConfigNode) :
    replaceAt tree (loc ++ ext) x = replaceAt tree loc (replaceAt n ext x) := by
  induction loc generalizing tree with
  | nil =>
      simp only [nodeAt] at h
      cases h
      simp [replaceAt]
  | cons i p ih =>
      cases tree with
      | object ms =>
          simp only [nodeAt] at h
          match hg : ms.get? i with
          | some kv =>
              rw [hg] at h
              simp only [List.cons_append, List.append_eq, replaceAt, hg]
              rw [ih h]
          | none => rw [hg] at h; exact absurd h (by simp)
      | array es =>
          simp only [nodeAt] at h
          match hg : es.get? i with
          | some c =>
              rw [hg] at h
              simp only [List.cons_append, List.append_eq, replaceAt, hg]
              rw [ih h]
          | none => rw [hg] at h; exact absurd h (by simp)
      | derivedArray es =>
          simp only [nodeAt] at h
          match hg : es.get? i with
          | some c =>
              rw [hg] at h
              simp only [List.cons_append, List.append_eq, replaceAt, hg]
              rw [ih h]
          | none => rw [hg] at h; exact absurd h (by simp)
      | null => simp [nodeAt] at h
      | value v => simp [nodeAt] at h
      | nodeReference r => simp [nodeAt] at h
      | derivedObject b c => simp [nodeAt] at h

/-! ## Lemmas: fully-resolved trees -/

theorem membersFullyResolved_get : ∀ (ms : MemberMap), membersFullyResolved ms = true →
    ∀ {i kv}, ms.get? i = some kv → isFullyResolved kv.2 = true
  | .cons k v tl, h, i, kv, hg => by
      simp only [membersFullyResolved, Bool.and_eq_true] at h
      cases i with
      | zero =>
          simp only [MemberMap.get?] at hg
          cases hg
          exact h.1
      | succ n => exact membersFullyResolved_get tl h.2 (by simpa [MemberMap.get?] using hg)

theorem elemsFullyResolved_get : ∀ (es : NodeList), elemsFullyResolved es = true →
    ∀ {i c}, es.get? i = some c → isFullyResolved c = true
  | .cons hd tl, h, i, c, hg => by
      simp only [elemsFullyResolved, Bool.and_eq_true] at h
      cases i with
      | zero =>
          simp only [NodeList.get?] at hg
          cases hg
          exact h.1
      | succ n => exact elemsFullyResolved_get tl h.2 (by simpa [NodeList.get?] using hg)

theorem membersFullyResolved_find : ∀ (ms : MemberMap), membersFullyResolved ms = true →
    ∀ {k v}, ms.find k = some v → isFullyResolved v = true
  | .cons k0 v0 tl, h, k, v, hf => by
      simp only [membersFullyResolved, Bool.and_eq_true] at h
      by_cases hk : k0 = k
      · simp only [MemberMap.find, hk, if_pos rfl] at hf
        cases hf
        exact h.1
      · simp only [MemberMap.find, hk, if_neg hk] at hf
        exact membersFullyResolved_find tl h.2 hf

theorem membersFullyResolved_of_get : ∀ (ms : MemberMap),
    (∀ i kv, ms.get? i = some kv → isFullyResolved kv.2 = true) →
    membersFullyResolved ms = true
  | .nil, _ => rfl
  | .cons k v tl, h => by
      simp only [membersFullyResolved, Bool.and_eq_true]
      refine ⟨h 0 (k, v) rfl, membersFullyResolved_of_get tl ?_⟩
      intro i kv hg
      exact h (i + 1) kv (by simpa [MemberMap.get?] using hg)

theorem elemsFullyResolved_of_get : ∀ (es : NodeList),
    (∀ i c, es.get? i = some c → isFullyResolved c = true) →
    elemsFullyResolved es = true
  | .nil, _ => rfl
  | .cons hd tl, h => by
      simp only [elemsFullyResolved, Bool.and_eq_true]
      refine ⟨h 0 hd rfl, elemsFullyResolved_of_get tl ?_⟩
      intro i c hg
      exact h (i + 1) c (by simpa [NodeList.get?] using hg)

/-- A fully resolved tree has fully resolved subtrees at every position. -/
theorem isFullyResolved_nodeAt {tree : ConfigNode} {loc : List Nat} {s : ConfigNode}
    (hfr : isFullyResolved tree = true) (h : nodeAt tree loc = some s) :
    isFullyResolved s = true := by
  induction loc generalizing tree with
  | nil => simp only [nodeAt] at h; cases h; exact hfr
  | cons i p ih =>
      cases tree with
      | object ms =>
          simp only [nodeAt] at h
          match hg : ms.get? i with
          | some kv =>
              rw [hg] at h
              exact ih (membersFullyResolved_get ms (by simpa [isFullyResolved] using hfr) hg) h
          | none => rw [hg] at h; exact absurd h (by simp)
      | array es =>
          simp only [nodeAt] at h
          match hg : es.get? i with
          | some c =>
              rw [hg] at h
              exact ih (elemsFullyResolved_get es (by simpa [isFullyResolved] using hfr) hg) h
          | none => rw [hg] at h; exact absurd h (by simp)
      | derivedArray es => simp [isFullyResolved] at hfr
      | null => simp [nodeAt] at h
      | value v => simp [nodeAt] at h
      | nodeReference r => simp [nodeAt] at h
      | derivedObject b c => simp [nodeAt] at h

theorem membersFullyResolved_replaceValue :
    ∀ (ms : MemberMap) (k : String) (v : ConfigNode),
      membersFullyResolved ms = true → isFullyResolved v = true →
      membersFullyResolved (ms.replaceValue k v) = true
  | .nil, _, _, _, _ => rfl
  | .cons k0 v0 tl, k, v, hm, hv => by
      simp only [membersFullyResolved, Bool.and_eq_true] at hm
      by_cases hk : k0 = k
      · simp [MemberMap.replaceValue, hk, membersFullyResolved, hv, hm.2]
      · simp [MemberMap.replaceValue, hk, membersFullyResolved, hm.1,
              membersFullyResolved_replaceValue tl k v hm.2 hv]

theorem membersFullyResolved_append :
    ∀ (ms : MemberMap) (k : String) (v : ConfigNode),
      membersFullyResolved ms = true → isFullyResolved v = true →
      membersFullyResolved (ms.append k v) = true
  | .nil, _, _, _, hv => by simp [MemberMap.append, membersFullyResolved, hv]
  | .cons k0 v0 tl, k, v, hm, hv => by
      simp only [membersFullyResolved, Bool.and_eq_true] at hm
      simp [MemberMap.append, membersFullyResolved, hm.1,
            membersFullyResolved_append tl k v hm.2 hv]

theorem membersFullyResolved_mergeMember {ms : MemberMap} {k : String} {v : ConfigNode}
    (hm : membersFullyResolved ms = true) (hv : isFullyResolved v = true) :
    membersFullyResolved (mergeMember ms k v) = true := by
  unfold mergeMember
  by_cases hc : ms.containsMember k = true
  · simp [hc, membersFullyResolved_replaceValue ms k v hm hv]
  · simp [Bool.not_eq_true] at hc
    simp [hc, membersFullyResolved_append ms k v hm hv]

mutual

/-- `applyObject`'s merge preserves full resolution. -/
theorem applyNode_fullyResolved : ∀ (src dst : ConfigNode),
    isFullyResolved dst = true → isFullyResolved src = true →
    isFullyResolved (applyNode dst src) = true
  | .object sm, dst, hd, hs => by
      cases dst with
      | object dm =>
          simpa [applyNode, isFullyResolved] using
            applyMap_fullyResolved sm dm (by simpa [isFullyResolved] using hd)
              (by simpa [isFullyResolved] using hs)
      | null => simpa [applyNode] using hs
      | value v => simpa [applyNode] using hs
      | array es => simpa [applyNode] using hs
      | nodeReference r => simpa [applyNode] using hs
      | derivedArray es => simpa [applyNode] using hs
      | derivedObject b c => simpa [applyNode] using hs
  | .null, _, _, hs => by simpa [applyNode] using hs
  | .value v, _, _, hs => by simpa [applyNode] using hs
  | .array es, _, _, hs => by simpa [applyNode] using hs
  | .nodeReference r, _, _, hs => by simpa [applyNode] using hs
  | .derivedArray es, _, _, hs => by simpa [applyNode] using hs
  | .derivedObject b c, _, _, hs => by simpa [applyNode] using hs

/-- The member fold of `applyObject` preserves full resolution. -/
theorem applyMap_fullyResolved : ∀ (sm : MemberMap) (dm : MemberMap),
    membersFullyResolved dm = true → membersFullyResolved sm = true →
    membersFullyResolved (applyMap dm sm) = true
  | .nil, dm, hd, _ => by simpa [applyMap] using hd
  | .cons k v sm', dm, hd, hs => by
      simp only [membersFullyResolved, Bool.and_eq_true] at hs
      have hnew : isFullyResolved
          (match dm.find k with
           | some old => applyNode old v
           | none => v) = true := by
        match hf : dm.find k with
        | some old =>
            exact applyNode_fullyResolved v old (membersFullyResolved_find dm hd hf) hs.1
        | none => exact hs.1
      simpa [applyMap] using
        applyMap_fullyResolved sm' (mergeMember dm k _)
          (membersFullyResolved_mergeMember hd hnew) hs.2

end

/-- `applyObject` preserves full resolution. -/
theorem applyObject_fullyResolved {dst src r : ConfigNode}
    (hd : isFullyResolved dst = true) (hs : isFullyResolved src = true)
    (h : applyObject dst src = some r) : isFullyResolved r = true := by
  cases dst with
  | object dm =>
      cases src with
      | object sm =>
          simp only [applyObject] at h
          cases h
          exact applyNode_fullyResolved (.object sm) (.object dm) hd hs
      | null => simp only [applyObject] at h; cases h; exact hd
      | value v => simp [applyObject] at h
      | array es => simp [applyObject] at h
      | nodeReference rf => simp [applyObject] at h
      | derivedArray es => simp [applyObject] at h
      | derivedObject b c => simp [applyObject] at h
  | null => simp [applyObject] at h
  | value v => simp [applyObject] at h
  | array es => simp [applyObject] at h
  | nodeReference rf => simp [applyObject] at h
  | derivedArray es => simp [applyObject] at h
  | derivedObject b c => simp [applyObject] at h

/-! ## Lemmas: walk stacks -/

/-- A node has no parent exactly when it is the root of the outermost tree. -/
theorem stackParent_eq_none {tree : ConfigNode} {loc : List Nat} {frames : WalkStack} :
    stackParent ((tree, loc) :: frames) = none ↔ loc = [] ∧ frames = [] := by
  cases loc with
  | nil =>
      cases frames with
      | nil => simp [stackParent]
      | cons f fs => simp [stackParent]
  | cons i p => simp [stackParent]

/-- Walking from a single-frame stack stays inside that frame's tree. -/
theorem stackWalk_single {t : ConfigNode} : ∀ (segs : List String) (p : List Nat) {st' : WalkStack},
    stackWalk [(t, p)] segs = some st' → ∃ q, st' = [(t, q)] := by
  intro segs
  induction segs with
  | nil =>
      intro p st' h
      simp only [stackWalk] at h
      cases h
      exact ⟨p, rfl⟩
  | cons seg rest ih =>
      intro p st' h
      simp only [stackWalk] at h
      by_cases hseg : seg = ".."
      · rw [if_pos hseg] at h
        cases p with
        | nil => simp [stackParent] at h
        | cons i q =>
            simp only [stackParent] at h
            exact ih _ h
      · rw [if_neg hseg] at h
        simp only [stackChild] at h
        match hn : nodeAt t p with
        | some (.object ms) =>
            simp only [hn] at h
            match hi : ms.findIdx seg with
            | some i =>
                simp only [hi] at h
                exact ih _ h
            | none => simp [hi] at h
        | some .null => simp [hn] at h
        | some (.value v) => simp [hn] at h
        | some (.array es) => simp [hn] at h
        | some (.nodeReference r) => simp [hn] at h
        | some (.derivedArray es) => simp [hn] at h
        | some (.derivedObject b c) => simp [hn] at h
        | none => simp [hn] at h

/-- The match at the heart of `findRef`, walking from a single frame. -/
theorem findRefAux {t : ConfigNode} {segs : List String} {s : ConfigNode}
    (p0 : List Nat)
    (h : (match stackWalk [(t, p0)] segs with
          | some st' => stackNode st'
          | none => none) = some s) : ∃ q, nodeAt t q = some s := by
  revert h
  cases hw : stackWalk [(t, p0)] segs with
  | some st' =>
      intro h
      obtain ⟨q, rfl⟩ := stackWalk_single _ _ hw
      exact ⟨q, by simpa [stackNode] using h⟩
  | none => intro h; simp at h

/-- A lookup from inside a single tree returns one of that tree's subtrees. -/
theorem findRef_single {t : ConfigNode} {p : List Nat} {ref : String} {s : ConfigNode}
    (h : findRef [(t, p)] ref = some s) : ∃ q, nodeAt t q = some s := by
  unfold findRef at h
  by_cases habs : isAbsoluteNodePath ref = true
  · rw [if_pos habs] at h
    exact findRefAux [] h
  · rw [if_neg habs] at h
    exact findRefAux p h

/-! ## Lemmas: the transform preserves full resolution -/

theorem buildDestination_fullyResolved :
    ∀ (names : List String) {src r : ConfigNode},
      isFullyResolved src = true → buildDestination names src = some r →
      isFullyResolved r = true
  | [], _, _, _, h => by simp [buildDestination] at h
  | [name], src, r, hs, h => by
      by_cases hv : validateNodeName name = true
      · simp only [buildDestination, if_pos hv] at h
        cases h
        simp [isFullyResolved, membersFullyResolved, hs]
      · simp [buildDestination, hv] at h
  | name :: next :: rest, src, r, hs, h => by
      by_cases hv : validateNodeName name = true
      · simp only [buildDestination, if_pos hv] at h
        match hb : buildDestination (next :: rest) src with
        | some inner =>
            rw [hb] at h
            cases h
            simpa [isFullyResolved, membersFullyResolved] using
              buildDestination_fullyResolved (next :: rest) hs hb
        | none => rw [hb] at h; simp at h
      · simp [buildDestination, hv] at h

theorem transformConfig_fullyResolved {config : ConfigNode} {s d : String}
    {r : ConfigNode} (hfr : isFullyResolved config = true)
    (h : transformConfig config s d = some r) : isFullyResolved r = true := by
  unfold transformConfig at h
  by_cases hroot : (s = "/" && d = "/") = true
  · rw [if_pos hroot] at h
    cases h
    exact hfr
  · rw [if_neg hroot] at h
    have hsrc : ∀ src, (if s = "/" then some config else findRef [(config, [])] s) = some src →
        isFullyResolved src = true := by
      intro src hsome
      by_cases hs : s = "/"
      · rw [if_pos hs] at hsome
        cases hsome
        exact hfr
      · rw [if_neg hs] at hsome
        obtain ⟨q, hq⟩ := findRef_single hsome
        exact isFullyResolved_nodeAt hfr hq
    revert h
    cases hm : (if s = "/" then some config else findRef [(config, [])] s) with
    | some src =>
        intro h0
        have h2 : (if d = "/" then some src
                  else buildDestination (splitSlashes (d.drop 1).data) src) = some r := h0
        by_cases hd : d = "/"
        · rw [if_pos hd] at h2
          cases h2
          exact hsrc _ hm
        · rw [if_neg hd] at h2
          exact buildDestination_fullyResolved _ (hsrc src hm) h2
    | none => intro h; simp at h

theorem nodeList_set_get_self {es : NodeList} {i : Nat} {c : ConfigNode}
    (h : es.get? i = some c) : es.set i c = es := by
  induction i generalizing es with
  | zero =>
      cases es with
      | nil => simp [NodeList.get?] at h
      | cons hd tl =>
          simp only [NodeList.get?] at h
          cases h
          simp [NodeList.set]
  | succ n ih =>
      cases es with
      | nil => simp [NodeList.get?] at h
      | cons hd tl =>
          simp only [NodeList.set]
          rw [ih (by simpa [NodeList.get?] using h)]

theorem memberMap_set_get_self {ms : MemberMap} {i : Nat} {kv : String × ConfigNode}
    (h : ms.get? i = some kv) : ms.set i kv.2 = ms := by
  induction i generalizing ms with
  | zero =>
      cases ms with
      | nil => simp [MemberMap.get?] at h
      | cons k v tl =>
          simp only [MemberMap.get?] at h
          cases h
          simp [MemberMap.set]
  | succ n ih =>
      cases ms with
      | nil => simp [MemberMap.get?] at h
      | cons k v tl =>
          simp only [MemberMap.set]
          rw [ih (by simpa [MemberMap.get?] using h)]

/-- Replacing a node by itself is the identity. -/
theorem replaceAt_self {tree : ConfigNode} {loc : List Nat} {n : ConfigNode}
    (h : nodeAt tree loc = some n) : replaceAt tree loc n = tree := by
  induction loc generalizing tree with
  | nil => simp only [nodeAt] at h; cases h; simp [replaceAt]
  | cons i p ih =>
      cases tree with
      | object ms =>
          simp only [nodeAt] at h
          match hg : ms.get? i with
          | some kv =>
              rw [hg] at h
              simp only [replaceAt, hg, ih h, memberMap_set_get_self hg]
          | none => rw [hg] at h; exact absurd h (by simp)
      | array es =>
          simp only [nodeAt] at h
          match hg : es.get? i with
          | some c =>
              rw [hg] at h
              simp only [replaceAt, hg, ih h, nodeList_set_get_self hg]
          | none => rw [hg] at h; exact absurd h (by simp)
      | derivedArray es =>
          simp only [nodeAt] at h
          match hg : es.get? i with
          | some c =>
              rw [hg] at h
              simp only [replaceAt, hg, ih h, nodeList_set_get_self hg]
          | none => rw [hg] at h; exact absurd h (by simp)
      | null => simp [nodeAt] at h
      | value v => simp [nodeAt] at h
      | nodeReference r => simp [nodeAt] at h
      | derivedObject b c => simp [nodeAt] at h

/-- Positions compose. -/
theorem nodeAt_append (tree : ConfigNode) (loc ext : List Nat) :
    nodeAt tree (loc ++ ext) = (nodeAt tree loc).bind (fun n => nodeAt n ext) := by
  induction loc generalizing tree with
  | nil => simp [nodeAt]
  | cons i p ih =>
      cases tree with
      | object ms =>
          simp only [List.cons_append, nodeAt]
          match hg : ms.get? i with
          | some kv => exact ih kv.2
          | none => simp
      | array es =>
          simp only [List.cons_append, nodeAt]
          match hg : es.get? i with
          | some c => exact ih c
          | none => simp
      | derivedArray es =>
          simp only [List.cons_append, nodeAt]
          match hg : es.get? i with
          | some c => exact ih c
          | none => simp
      | null => simp [nodeAt]
      | value v => simp [nodeAt]
      | nodeReference r => simp [nodeAt]
      | derivedObject b c => simp [nodeAt]

theorem nodeAt_elemContainer (b : Bool) (cur : NodeList) (i : Nat) :
    nodeAt (elemContainer b cur) [i] = cur.get? i := by
  cases b with
  | true =>
      simp only [elemContainer, nodeAt]
      match hg : cur.get? i with
      | some c => simp [nodeAt]
      | none => simp
  | false =>
      simp only [elemContainer, nodeAt]
      match hg : cur.get? i with
      | some c => simp [nodeAt]
      | none => simp

theorem replaceAt_elemContainer {b : Bool} {cur : NodeList} {i : Nat} {c : ConfigNode}
    (h : cur.get? i = some c) (x : ConfigNode) :
    replaceAt (elemContainer b cur) [i] x = elemContainer b (cur.set i x) := by
  cases b with
  | true => simp only [elemContainer, replaceAt, h]
  | false => simp only [elemContainer, replaceAt, h]

theorem nodeAt_object (ms : MemberMap) (i : Nat) :
    nodeAt (.object ms) [i] = (ms.get? i).map (fun kv => kv.2) := by
  simp only [nodeAt]
  match hg : ms.get? i with
  | some kv => simp [nodeAt]
  | none => simp

theorem replaceAt_object {ms : MemberMap} {i : Nat} {kv : String × ConfigNode}
    (h : ms.get? i = some kv) (x : ConfigNode) :
    replaceAt (.object ms) [i] x = .object (ms.set i x) := by
  simp only [replaceAt, h]

/-- The base fold produces a fully resolved accumulator. -/
theorem applyBases_fullyResolved :
    ∀ (bases : List String) (pstack : WalkStack) {acc0 acc : ConfigNode},
      isFullyResolved acc0 = true → applyBases pstack bases acc0 = .okB acc →
      isFullyResolved acc = true
  | [], _, _, _, h0, h => by
      simp only [applyBases] at h
      cases h
      exact h0
  | base :: rest, pstack, acc0, acc, h0, h => by
      simp only [applyBases] at h
      split at h
      · exact absurd h (by simp)
      · next baseNode hfind =>
          split at h
          · next hfr =>
              split at h
              · next acc1 happ =>
                  exact applyBases_fullyResolved rest pstack
                    (applyObject_fullyResolved h0 hfr happ) h
              · exact absurd h (by simp)
          · exact absurd h (by simp)

/-- The final step of resolving a derived object replaces the node by a
fully resolved accumulator when it succeeds. -/
theorem finishDerivedObject_sound {tree : ConfigNode} {loc : List Nat}
    {n0 acc config : ConfigNode} (hnode : nodeAt tree loc = some n0)
    (hacc : isFullyResolved acc = true) (hcfg : isFullyResolved config = true) :
    ∃ s, (finishDerivedObject tree loc acc config).1 = replaceAt tree loc s ∧
      ((finishDerivedObject tree loc acc config).2 = .resolved →
        isFullyResolved s = true) := by
  cases config with
  | null => exact ⟨acc, rfl, fun _ => hacc⟩
  | value v =>
      refine ⟨n0, ?_, ?_⟩
      · simp only [finishDerivedObject]
        split
        · next acc' happ => exact absurd happ (by cases acc <;> simp [applyObject])
        · exact (replaceAt_self hnode).symm
      · simp only [finishDerivedObject]
        split
        · next acc' happ => exact absurd happ (by cases acc <;> simp [applyObject])
        · intro hres; simp at hres
  | array es =>
      refine ⟨n0, ?_, ?_⟩
      · simp only [finishDerivedObject]
        split
        · next acc' happ => exact absurd happ (by cases acc <;> simp [applyObject])
        · exact (replaceAt_self hnode).symm
      · simp only [finishDerivedObject]
        split
        · next acc' happ => exact absurd happ (by cases acc <;> simp [applyObject])
        · intro hres; simp at hres
  | object sm =>
      simp only [finishDerivedObject]
      split
      · next acc' happ =>
          exact ⟨acc', rfl, fun _ => applyObject_fullyResolved hacc hcfg happ⟩
      · next hnone =>
          refine ⟨n0, (replaceAt_self hnode).symm, ?_⟩
          intro hres; simp at hres
  | nodeReference r => simp [isFullyResolved] at hcfg
  | derivedArray es => simp [isFullyResolved] at hcfg
  | derivedObject b c => simp [isFullyResolved] at hcfg

theorem replaceAt_replaceAt (tree : ConfigNode) (loc : List Nat) (a b : ConfigNode) :
    replaceAt (replaceAt tree loc a) loc b = replaceAt tree loc b := by
  induction loc generalizing tree with
  | nil => simp [replaceAt]
  | cons i p ih =>
      cases tree with
      | object ms =>
          match hg : ms.get? i with
          | some kv =>
              simp only [replaceAt, hg, memberMap_get_set_eq hg, ih, memberMap_set_set]
          | none => simp only [replaceAt, hg]
      | array es =>
          match hg : es.get? i with
          | some c =>
              simp only [replaceAt, hg, nodeList_get_set_eq hg, ih, nodeList_set_set]
          | none => simp only [replaceAt, hg]
      | derivedArray es =>
          match hg : es.get? i with
          | some c =>
              simp only [replaceAt, hg, nodeList_get_set_eq hg, ih, nodeList_set_set]
          | none => simp only [replaceAt, hg]
      | null => simp [replaceAt]
      | value v => simp [replaceAt]
      | nodeReference r => simp [replaceAt]
      | derivedObject bs c => simp [replaceAt]

/-! ## Soundness of the resolver

A call on the node at `loc` only rewrites the subtree at `loc`, and a
`Resolved` outcome leaves a fully resolved subtree there. -/

mutual

theorem resolveReferences_sound : ∀ (node : ConfigNode) (frames : WalkStack)
    (tree : ConfigNode) (loc : List Nat), nodeAt tree loc = some node →
    ∃ s, (resolveReferences frames tree loc node).1 = replaceAt tree loc s ∧
      ((resolveReferences frames tree loc node).2 = .resolved →
        isFullyResolved s = true)
  | .null, frames, tree, loc, hnode =>
      ⟨.null, (replaceAt_self hnode).symm, fun _ => rfl⟩
  | .value v, frames, tree, loc, hnode =>
      ⟨.value v, (replaceAt_self hnode).symm, fun _ => rfl⟩
  | .array es, frames, tree, loc, hnode => by
      obtain ⟨cur', h1, h2, h3⟩ :=
        resolveArrayReferences_sound es frames tree loc 0 true es .resolved hnode
          (fun j => by rw [Nat.zero_add])
      refine ⟨.array cur', ?_, ?_⟩
      · simpa [resolveReferences, elemContainer] using h1
      · intro hres
        have hres' : (resolveArrayReferences frames tree loc 0 es .resolved).2 = .resolved := by
          simpa [resolveReferences] using hres
        obtain ⟨-, hfr⟩ := h3 hres'
        simp only [isFullyResolved]
        exact elemsFullyResolved_of_get cur' (fun i c hg => hfr i c (Nat.zero_le i) hg)
  | .object ms, frames, tree, loc, hnode => by
      obtain ⟨cur', h1, h2, h3⟩ :=
        resolveObjectReferences_sound ms frames tree loc 0 ms .resolved hnode
          (fun j => by rw [Nat.zero_add])
      refine ⟨.object cur', ?_, ?_⟩
      · simpa [resolveReferences] using h1
      · intro hres
        have hres' : (resolveObjectReferences frames tree loc 0 ms .resolved).2 = .resolved := by
          simpa [resolveReferences] using hres
        obtain ⟨-, hfr⟩ := h3 hres'
        simp only [isFullyResolved]
        exact membersFullyResolved_of_get cur' (fun i kv hg => hfr i kv (Nat.zero_le i) hg)
  | .nodeReference ref, frames, tree, loc, hnode => by
      cases hp : stackParent ((tree, loc) :: frames) with
      | none =>
          refine ⟨.nodeReference ref, ?_, ?_⟩
          · simp only [resolveReferences, resolveNodeReference, hp]
            exact (replaceAt_self hnode).symm
          · simp only [resolveReferences, resolveNodeReference, hp]
            intro hres; simp at hres
      | some pstack =>
          cases hf : findRef pstack ref with
          | none =>
              refine ⟨.nodeReference ref, ?_, ?_⟩
              · simp only [resolveReferences, resolveNodeReference, hp, hf]
                exact (replaceAt_self hnode).symm
              · simp only [resolveReferences, resolveNodeReference, hp, hf]
                intro hres; simp at hres
          | some target =>
              refine ⟨target, ?_, ?_⟩
              · simp only [resolveReferences, resolveNodeReference, hp, hf]
              · simp only [resolveReferences, resolveNodeReference, hp, hf]
                by_cases hfr : isFullyResolved target = true
                · intro _; exact hfr
                · rw [if_neg hfr]
                  intro hres; simp at hres
  | .derivedArray es, frames, tree, loc, hnode => by
      cases hp : stackParent ((tree, loc) :: frames) with
      | none =>
          refine ⟨.derivedArray es, ?_, ?_⟩
          · simp only [resolveReferences, hp]
            exact (replaceAt_self hnode).symm
          · simp only [resolveReferences, hp]
            intro hres; simp at hres
      | some pstack =>
          obtain ⟨cur', h1, h2, h3⟩ :=
            resolveArrayReferences_sound es frames tree loc 0 false es .resolved hnode
              (fun j => by rw [Nat.zero_add])
          rcases hfold : resolveArrayReferences frames tree loc 0 es .resolved with ⟨tree1, r⟩
          have h1' : tree1 = replaceAt tree loc (elemContainer false cur') := by
            rw [hfold] at h1; exact h1
          cases r with
          | resolved =>
              have hn1 : nodeAt tree1 loc = some (.derivedArray cur') := by
                rw [h1']; exact nodeAt_replaceAt_self hnode _
              have hfr : elemsFullyResolved cur' = true := by
                have : (resolveArrayReferences frames tree loc 0 es .resolved).2 = .resolved := by
                  rw [hfold]
                obtain ⟨-, hfr'⟩ := h3 this
                exact elemsFullyResolved_of_get cur' (fun i c hg => hfr' i c (Nat.zero_le i) hg)
              refine ⟨.array cur', ?_, fun _ => by simpa [isFullyResolved] using hfr⟩
              simp only [resolveReferences, hp, hfold, hn1]
              rw [h1', replaceAt_replaceAt]
          | unresolved =>
              refine ⟨.derivedArray cur', ?_, ?_⟩
              · simp only [resolveReferences, hp, hfold]
                exact h1'
              · simp only [resolveReferences, hp, hfold]
                intro hres; simp at hres
          | error =>
              refine ⟨.derivedArray cur', ?_, ?_⟩
              · simp only [resolveReferences, hp, hfold]
                exact h1'
              · simp only [resolveReferences, hp, hfold]
                intro hres; simp at hres
  | .derivedObject bases config, frames, tree, loc, hnode => by
      cases hp : stackParent ((tree, loc) :: frames) with
      | none =>
          refine ⟨.derivedObject bases config, ?_, ?_⟩
          · simp only [resolveReferences, hp]
            exact (replaceAt_self hnode).symm
          · simp only [resolveReferences, hp]
            intro hres; simp at hres
      | some pstack =>
          cases hb : applyBases pstack bases (.object .nil) with
          | errorB =>
              refine ⟨.derivedObject bases config, ?_, ?_⟩
              · simp only [resolveReferences, hp, hb]
                exact (replaceAt_self hnode).symm
              · simp only [resolveReferences, hp, hb]
                intro hres; simp at hres
          | unresolvedB =>
              refine ⟨.derivedObject bases config, ?_, ?_⟩
              · simp only [resolveReferences, hp, hb]
                exact (replaceAt_self hnode).symm
              · simp only [resolveReferences, hp, hb]
                intro hres; simp at hres
          | okB acc =>
              have hacc : isFullyResolved acc = true :=
                applyBases_fullyResolved bases pstack
                  (show isFullyResolved (ConfigNode.object MemberMap.nil) = true from rfl) hb
              by_cases hcfg : isFullyResolved config = true
              · obtain ⟨s, hs1, hs2⟩ := finishDerivedObject_sound hnode hacc hcfg
                refine ⟨s, ?_, ?_⟩
                · simpa only [resolveReferences, hp, hb, if_pos hcfg] using hs1
                · intro hres
                  exact hs2 (by simpa only [resolveReferences, hp, hb, if_pos hcfg] using hres)
              · obtain ⟨sc, hsc1, hsc2⟩ :=
                  resolveReferences_sound config pstack config [] (by simp [nodeAt])
                rcases hcall : resolveReferences pstack config [] config with ⟨config1, rc⟩
                have hsc1' : config1 = sc := by
                  rw [hcall] at hsc1
                  simpa [replaceAt] using hsc1
                have hsc2' : rc = RRes.resolved → isFullyResolved sc = true := by
                  intro hr; exact hsc2 (by rw [hcall]; exact hr)
                cases rc with
                | resolved =>
                    obtain ⟨s, hs1, hs2⟩ :=
                      finishDerivedObject_sound hnode hacc
                        (show isFullyResolved config1 = true by
                          rw [hsc1']; exact hsc2' rfl)
                    refine ⟨s, ?_, ?_⟩
                    · simpa only [resolveReferences, hp, hb, if_neg hcfg, hcall] using hs1
                    · intro hres
                      exact hs2 (by
                        simpa only [resolveReferences, hp, hb, if_neg hcfg, hcall] using hres)
                | unresolved =>
                    refine ⟨.derivedObject bases config1, ?_, ?_⟩
                    · simp only [resolveReferences, hp, hb, if_neg hcfg, hcall]
                    · simp only [resolveReferences, hp, hb, if_neg hcfg, hcall]
                      intro hres; simp at hres
                | error =>
                    refine ⟨.derivedObject bases config, ?_, ?_⟩
                    · simp only [resolveReferences, hp, hb, if_neg hcfg, hcall]
                      exact (replaceAt_self hnode).symm
                    · simp only [resolveReferences, hp, hb, if_neg hcfg, hcall]
                      intro hres; simp at hres

theorem resolveArrayReferences_sound : ∀ (es : NodeList) (frames : WalkStack)
    (tree : ConfigNode) (loc : List Nat) (i : Nat) (b : Bool) (cur : NodeList)
    (acc : RRes), nodeAt tree loc = some (elemContainer b cur) →
    (∀ j, cur.get? (i + j) = es.get? j) →
    ∃ cur', (resolveArrayReferences frames tree loc i es acc).1 =
        replaceAt tree loc (elemContainer b cur') ∧
      (∀ j, j < i → cur'.get? j = cur.get? j) ∧
      ((resolveArrayReferences frames tree loc i es acc).2 = .resolved →
        acc = .resolved ∧
          ∀ j c, i ≤ j → cur'.get? j = some c → isFullyResolved c = true)
  | .nil, frames, tree, loc, i, b, cur, acc, hnode, halign => by
      refine ⟨cur, ?_, fun j _ => rfl, ?_⟩
      · simp only [resolveArrayReferences]
        exact (replaceAt_self hnode).symm
      · intro hres
        refine ⟨by simpa [resolveArrayReferences] using hres, ?_⟩
        intro j c hij hget
        have halj := halign (j - i)
        rw [Nat.add_sub_cancel' hij, hget] at halj
        simp [NodeList.get?] at halj
  | .cons e tl, frames, tree, loc, i, b, cur, acc, hnode, halign => by
      have hget_i : cur.get? i = some e := by
        have := halign 0
        simpa [NodeList.get?] using this
      have hchildpos : nodeAt tree (loc ++ [i]) = some e := by
        rw [nodeAt_append, hnode]
        simpa [Option.bind] using (nodeAt_elemContainer b cur i).trans hget_i
      obtain ⟨se, hse1, hse2⟩ :=
        resolveReferences_sound e frames tree (loc ++ [i]) hchildpos
      rcases hcall : resolveReferences frames tree (loc ++ [i]) e with ⟨tree1, r⟩
      have hse1' : tree1 = replaceAt tree (loc ++ [i]) se := by
        rw [hcall] at hse1; exact hse1
      have hse2' : r = RRes.resolved → isFullyResolved se = true := by
        intro hr; exact hse2 (by rw [hcall]; exact hr)
      have htree1 : tree1 = replaceAt tree loc (elemContainer b (cur.set i se)) := by
        rw [hse1', replaceAt_append hnode, replaceAt_elemContainer hget_i]
      have hnode1 : nodeAt tree1 loc = some (elemContainer b (cur.set i se)) := by
        rw [htree1]; exact nodeAt_replaceAt_self hnode _
      have halign1 : ∀ j, (cur.set i se).get? (i + 1 + j) = tl.get? j := by
        intro j
        rw [nodeList_get_set_ne cur (by omega) se]
        have := halign (j + 1)
        rw [show i + (j + 1) = i + 1 + j by omega] at this
        simpa [NodeList.get?] using this
      cases r with
      | resolved =>
          obtain ⟨cur2, hc1, hc2, hc3⟩ :=
            resolveArrayReferences_sound tl frames tree1 loc (i + 1) b
              (cur.set i se) acc hnode1 halign1
          have hstep : resolveArrayReferences frames tree loc i (.cons e tl) acc =
              resolveArrayReferences frames tree1 loc (i + 1) tl acc := by
            simp only [resolveArrayReferences, hcall]
          refine ⟨cur2, ?_, ?_, ?_⟩
          · rw [hstep, hc1, htree1, replaceAt_replaceAt]
          · intro j hj
            rw [hc2 j (by omega), nodeList_get_set_ne cur (by omega) se]
          · intro hres
            rw [hstep] at hres
            obtain ⟨hacc, hfr⟩ := hc3 hres
            refine ⟨hacc, ?_⟩
            intro j c hij hget
            by_cases hji : j = i
            · subst hji
              have hcur2 : cur2.get? j = (cur.set j se).get? j := hc2 j (by omega)
              rw [nodeList_get_set_eq hget_i se, hget] at hcur2
              cases hcur2
              exact hse2' rfl
            · exact hfr j c (by omega) hget
      | unresolved =>
          obtain ⟨cur2, hc1, hc2, hc3⟩ :=
            resolveArrayReferences_sound tl frames tree1 loc (i + 1) b
              (cur.set i se) .unresolved hnode1 halign1
          have hstep : resolveArrayReferences frames tree loc i (.cons e tl) acc =
              resolveArrayReferences frames tree1 loc (i + 1) tl .unresolved := by
            simp only [resolveArrayReferences, hcall]
          refine ⟨cur2, ?_, ?_, ?_⟩
          · rw [hstep, hc1, htree1, replaceAt_replaceAt]
          · intro j hj
            rw [hc2 j (by omega), nodeList_get_set_ne cur (by omega) se]
          · intro hres
            rw [hstep] at hres
            obtain ⟨hacc, -⟩ := hc3 hres
            exact absurd hacc (by simp)
      | error =>
          have hstep : resolveArrayReferences frames tree loc i (.cons e tl) acc =
              (tree1, .error) := by
            simp only [resolveArrayReferences, hcall]
          refine ⟨cur.set i se, ?_, ?_, ?_⟩
          · rw [hstep]; exact htree1
          · intro j hj
            rw [nodeList_get_set_ne cur (by omega) se]
          · intro hres
            rw [hstep] at hres
            simp at hres

theorem resolveObjectReferences_sound : ∀ (ms : MemberMap) (frames : WalkStack)
    (tree : ConfigNode) (loc : List Nat) (i : Nat) (cur : MemberMap)
    (acc : RRes), nodeAt tree loc = some (.object cur) →
    (∀ j, cur.get? (i + j) = ms.get? j) →
    ∃ cur', (resolveObjectReferences frames tree loc i ms acc).1 =
        replaceAt tree loc (.object cur') ∧
      (∀ j, j < i → cur'.get? j = cur.get? j) ∧
      ((resolveObjectReferences frames tree loc i ms acc).2 = .resolved →
        acc = .resolved ∧
          ∀ j kv, i ≤ j → cur'.get? j = some kv → isFullyResolved kv.2 = true)
  | .nil, frames, tree, loc, i, cur, acc, hnode, halign => by
      refine ⟨cur, ?_, fun j _ => rfl, ?_⟩
      · simp only [resolveObjectReferences]
        exact (replaceAt_self hnode).symm
      · intro hres
        refine ⟨by simpa [resolveObjectReferences] using hres, ?_⟩
        intro j kv hij hget
        have halj := halign (j - i)
        rw [Nat.add_sub_cancel' hij, hget] at halj
        simp [MemberMap.get?] at halj
  | .cons k v tl, frames, tree, loc, i, cur, acc, hnode, halign => by
      have hget_i : cur.get? i = some (k, v) := by
        have h0 := halign 0
        rw [show i + 0 = i by omega] at h0
        simpa [MemberMap.get?] using h0
      have hchildpos : nodeAt tree (loc ++ [i]) = some v := by
        rw [nodeAt_append, hnode]
        have hobj := nodeAt_object cur i
        rw [hget_i] at hobj
        simpa [Option.bind] using hobj
      obtain ⟨se, hse1, hse2⟩ :=
        resolveReferences_sound v frames tree (loc ++ [i]) hchildpos
      rcases hcall : resolveReferences frames tree (loc ++ [i]) v with ⟨tree1, r⟩
      have hse1' : tree1 = replaceAt tree (loc ++ [i]) se := by
        rw [hcall] at hse1; exact hse1
      have hse2' : r = RRes.resolved → isFullyResolved se = true := by
        intro hr; exact hse2 (by rw [hcall]; exact hr)
      have htree1 : tree1 = replaceAt tree loc (.object (cur.set i se)) := by
        rw [hse1', replaceAt_append hnode, replaceAt_object hget_i]
      have hnode1 : nodeAt tree1 loc = some (.object (cur.set i se)) := by
        rw [htree1]; exact nodeAt_replaceAt_self hnode _
      have halign1 : ∀ j, (cur.set i se).get? (i + 1 + j) = tl.get? j := by
        intro j
        rw [memberMap_get_set_ne cur (by omega) se]
        have := halign (j + 1)
        rw [show i + (j + 1) = i + 1 + j by omega] at this
        simpa [MemberMap.get?] using this
      cases r with
      | resolved =>
          obtain ⟨cur2, hc1, hc2, hc3⟩ :=
            resolveObjectReferences_sound tl frames tree1 loc (i + 1)
              (cur.set i se) acc hnode1 halign1
          have hstep : resolveObjectReferences frames tree loc i (.cons k v tl) acc =
              resolveObjectReferences frames tree1 loc (i + 1) tl acc := by
            simp only [resolveObjectReferences, hcall]
          refine ⟨cur2, ?_, ?_, ?_⟩
          · rw [hstep, hc1, htree1, replaceAt_replaceAt]
          · intro j hj
            rw [hc2 j (by omega), memberMap_get_set_ne cur (by omega) se]
          · intro hres
            rw [hstep] at hres
            obtain ⟨hacc, hfr⟩ := hc3 hres
            refine ⟨hacc, ?_⟩
            intro j kv hij hget
            by_cases hji : j = i
            · subst hji
              have hcur2 : cur2.get? j = (cur.set j se).get? j := hc2 j (by omega)
              rw [memberMap_get_set_eq hget_i se, hget] at hcur2
              cases hcur2
              exact hse2' rfl
            · exact hfr j kv (by omega) hget
      | unresolved =>
          obtain ⟨cur2, hc1, hc2, hc3⟩ :=
            resolveObjectReferences_sound tl frames tree1 loc (i + 1)
              (cur.set i se) .unresolved hnode1 halign1
          have hstep : resolveObjectReferences frames tree loc i (.cons k v tl) acc =
              resolveObjectReferences frames tree1 loc (i + 1) tl .unresolved := by
            simp only [resolveObjectReferences, hcall]
          refine ⟨cur2, ?_, ?_, ?_⟩
          · rw [hstep, hc1, htree1, replaceAt_replaceAt]
          · intro j hj
            rw [hc2 j (by omega), memberMap_get_set_ne cur (by omega) se]
          · intro hres
            rw [hstep] at hres
            obtain ⟨hacc, -⟩ := hc3 hres
            exact absurd hacc (by simp)
      | error =>
          have hstep : resolveObjectReferences frames tree loc i (.cons k v tl) acc =
              (tree1, .error) := by
            simp only [resolveObjectReferences, hcall]
          refine ⟨cur.set i se, ?_, ?_, ?_⟩
          · rw [hstep]; exact htree1
          · intro j hj
            rw [memberMap_get_set_ne cur (by omega) se]
          · intro hres
            rw [hstep] at hres
            simp at hres

end

/-- A `Resolved` pass leaves a fully resolved tree. -/
theorem resolvePass_resolved {root root' : ConfigNode}
    (h : resolvePass root = (root', RRes.resolved)) : isFullyResolved root' = true := by
  obtain ⟨s, h1, h2⟩ := resolveReferences_sound root [] root [] (by simp [nodeAt])
  have hpass : resolveReferences [] root [] root = (root', RRes.resolved) := h
  rw [hpass] at h1 h2
  have hs : root' = s := by simpa [replaceAt] using h1
  rw [hs]
  exact h2 rfl

/-- A loop that returns a tree returns a fully resolved tree. -/
theorem resolveLoop_ok_fullyResolved : ∀ (n : Nat) (root r : ConfigNode),
    (resolveLoop n root).1 = Except.ok r → isFullyResolved r = true := by
  intro n
  induction n with
  | zero => intro root r h; simp [resolveLoop] at h
  | succ n ih =>
      intro root r h
      rcases hp : resolvePass root with ⟨root1, res⟩
      cases res with
      | resolved =>
          have : resolveLoop (n + 1) root = (Except.ok root1, 1) := by
            simp only [resolveLoop, hp]
          rw [this] at h
          simp only at h
          cases h
          exact resolvePass_resolved hp
      | unresolved =>
          have : (resolveLoop (n + 1) root).1 = (resolveLoop n root1).1 := by
            simp only [resolveLoop, hp]
          rw [this] at h
          exact ih root1 r h
      | error =>
          have : resolveLoop (n + 1) root = (Except.error ReadLoopErr.resolveError, 1) := by
            simp only [resolveLoop, hp]
          rw [this] at h
          simp at h

/-- A successful `read` returns a fully resolved tree. -/
theorem read_fullyResolved : ∀ (fs : FileSystem) (fuel : Nat)
    (filePath sourceNode destinationNode : String) (result : ConfigNode),
    read fs fuel filePath sourceNode destinationNode = some result →
    isFullyResolved result = true := by
  intro fs fuel
  cases fuel with
  | zero => intro fp s d result h; simp [read] at h
  | succ fuel =>
      intro fp s d result h
      simp only [read] at h
      split at h
      · exact absurd h (by simp)
      · split at h
        · exact absurd h (by simp)
        · split at h
          · exact absurd h (by simp)
          · next rootObject heq =>
              split at h
              · exact absurd h (by simp)
              · next completeConfig hinc =>
                  split at h
                  · exact absurd h (by simp)
                  · next configMember hcfg =>
                      split at h
                      · exact absurd h (by simp)
                      · next fullConfig happ =>
                          split at h
                          · next resolvedConfig cnt hloop =>
                              have hfr : isFullyResolved resolvedConfig = true := by
                                refine resolveLoop_ok_fullyResolved
                                  referenceResolutionMaxCyclesDefault fullConfig
                                  resolvedConfig ?_
                                rw [hloop]
                              exact transformConfig_fullyResolved hfr h
                          · exact absurd h (by simp)
          · exact absurd h (by simp)

/-! ## Lemmas: member lookup through the merge -/

theorem MemberMap.find_replaceValue_self :
    ∀ (dm : MemberMap) (k : String) (v : ConfigNode),
      dm.containsMember k = true → (dm.replaceValue k v).find k = some v
  | .nil, k, v, hc => by simp [MemberMap.containsMember, MemberMap.find] at hc
  | .cons k0 v0 tl, k, v, hc => by
      by_cases hk : k0 = k
      · simp [MemberMap.replaceValue, MemberMap.find, hk]
      · have hc' : tl.containsMember k = true := by
          simpa [MemberMap.containsMember, MemberMap.find, hk] using hc
        simp [MemberMap.replaceValue, MemberMap.find, hk,
              MemberMap.find_replaceValue_self tl k v hc']

theorem MemberMap.find_replaceValue_ne :
    ∀ (dm : MemberMap) {k k' : String} (v : ConfigNode), k' ≠ k →
      (dm.replaceValue k v).find k' = dm.find k'
  | .nil, k, k', v, hne => rfl
  | .cons k0 v0 tl, k, k', v, hne => by
      by_cases hk : k0 = k
      · subst hk
        simp [MemberMap.replaceValue, MemberMap.find,
              show k0 ≠ k' from fun h => hne h.symm]
      · by_cases hk' : k0 = k'
        · simp [MemberMap.replaceValue, MemberMap.find, hk, hk', hne]
        · simp [MemberMap.replaceValue, MemberMap.find, hk, hk',
                MemberMap.find_replaceValue_ne tl v hne]

theorem MemberMap.find_append_self :
    ∀ (dm : MemberMap) (k : String) (v : ConfigNode),
      dm.containsMember k = false → (dm.append k v).find k = some v
  | .nil, k, v, _ => by simp [MemberMap.append, MemberMap.find]
  | .cons k0 v0 tl, k, v, hc => by
      by_cases hk : k0 = k
      · simp [MemberMap.containsMember, MemberMap.find, hk] at hc
      · have hc' : tl.containsMember k = false := by
          simpa [MemberMap.containsMember, MemberMap.find, hk] using hc
        simp [MemberMap.append, MemberMap.find, hk,
              MemberMap.find_append_self tl k v hc']

theorem MemberMap.find_append_ne :
    ∀ (dm : MemberMap) {k k' : String} (v : ConfigNode), k' ≠ k →
      (dm.append k v).find k' = dm.find k'
  | .nil, k, k', v, hne => by
      simp [MemberMap.append, MemberMap.find, show k ≠ k' from fun h => hne h.symm]
  | .cons k0 v0 tl, k, k', v, hne => by
      by_cases hk' : k0 = k'
      · simp [MemberMap.append, MemberMap.find, hk']
      · simp [MemberMap.append, MemberMap.find, hk', MemberMap.find_append_ne tl v hne]

theorem mergeMember_find_self (dm : MemberMap) (k : String) (v : ConfigNode) :
    (mergeMember dm k v).find k = some v := by
  unfold mergeMember
  by_cases hc : dm.containsMember k = true
  · simp only [hc, if_true]
    exact MemberMap.find_replaceValue_self dm k v hc
  · simp only [Bool.not_eq_true] at hc
    simp only [hc, if_false]
    exact MemberMap.find_append_self dm k v hc

theorem mergeMember_find_ne (dm : MemberMap) {k k' : String} (v : ConfigNode)
    (hne : k' ≠ k) : (mergeMember dm k v).find k' = dm.find k' := by
  unfold mergeMember
  by_cases hc : dm.containsMember k = true
  · simp only [hc, if_true]
    exact MemberMap.find_replaceValue_ne dm v hne
  · simp only [Bool.not_eq_true] at hc
    simp only [hc, if_false]
    exact MemberMap.find_append_ne dm v hne

theorem applyMap_find_not_mem :
    ∀ (sm dm : MemberMap) (k : String), sm.containsMember k = false →
      (applyMap dm sm).find k = dm.find k
  | .nil, dm, k, _ => by simp [applyMap]
  | .cons k0 v0 tl, dm, k, hc => by
      by_cases hk : k0 = k
      · simp [MemberMap.containsMember, MemberMap.find, hk] at hc
      · have hc' : tl.containsMember k = false := by
          simpa [MemberMap.containsMember, MemberMap.find, hk] using hc
        have hrw : applyMap dm (.cons k0 v0 tl) =
            applyMap (mergeMember dm k0
              (match dm.find k0 with
               | some old => applyNode old v0
               | none => v0)) tl := by
          simp only [applyMap]
        rw [hrw, applyMap_find_not_mem tl _ k hc',
            mergeMember_find_ne _ _ (fun h => hk h.symm)]

theorem applyMap_find_mem :
    ∀ (sm dm : MemberMap) {k : String} {v1 : ConfigNode}, keysNodup sm = true →
      sm.find k = some v1 →
      (applyMap dm sm).find k = some
        (match dm.find k with
         | some old => applyNode old v1
         | none => v1)
  | .cons k0 v0 tl, dm, k, v1, hnd, hfind => by
      have hnd1 : tl.containsMember k0 = false ∧ keysNodup tl = true := by
        simpa [keysNodup, Bool.and_eq_true] using hnd
      have hrw : applyMap dm (.cons k0 v0 tl) =
          applyMap (mergeMember dm k0
            (match dm.find k0 with
             | some old => applyNode old v0
             | none => v0)) tl := by
        simp only [applyMap]
      by_cases hk : k0 = k
      · subst hk
        have hv : v1 = v0 := by
          simpa [MemberMap.find] using hfind.symm
        subst hv
        rw [hrw, applyMap_find_not_mem tl _ k0 hnd1.1, mergeMember_find_self]
      · have hfind' : tl.find k = some v1 := by
          simpa [MemberMap.find, hk] using hfind
        rw [hrw, applyMap_find_mem tl _ hnd1.2 hfind',
            mergeMember_find_ne _ _ (fun h => hk h.symm)]

theorem wfKeysMembers_find :
    ∀ (sm : MemberMap) {k : String} {v : ConfigNode}, wfKeysMembers sm = true →
      sm.find k = some v → wfKeys v = true
  | .cons k0 v0 tl, k, v, hwf, hfind => by
      have hwf' : wfKeys v0 = true ∧ wfKeysMembers tl = true := by
        simpa [wfKeysMembers, Bool.and_eq_true] using hwf
      by_cases hk : k0 = k
      · have hv : v0 = v := by simpa [MemberMap.find, hk] using hfind
        exact hv ▸ hwf'.1
      · exact wfKeysMembers_find tl hwf'.2 (by simpa [MemberMap.find, hk] using hfind)

/-- `apply_object` override semantics: every member path at which the source
holds a non-`Object` value ends up holding exactly the source's value (the
source wins on conflicts, and nested objects merge recursively). -/
theorem applyMap_override_wins :
    ∀ (p : List String) (sm dm : MemberMap) (v : ConfigNode),
      keysNodup sm = true → wfKeysMembers sm = true →
      memberPath (.object sm) p = some v → (∀ mm, v ≠ .object mm) → p ≠ [] →
      memberPath (.object (applyMap dm sm)) p = some v
  | [], _, _, _, _, _, _, _, hne => absurd rfl hne
  | k :: rest, sm, dm, v, hnd, hwf, hpath, hnotobj, _ => by
      simp only [memberPath] at hpath
      revert hpath
      cases hfind : sm.find k with
      | none => intro hpath; simp at hpath
      | some v1 =>
          intro hpath
          have hpath1 : memberPath v1 rest = some v := hpath
          have hAM := applyMap_find_mem sm dm hnd hfind
          cases rest with
          | nil =>
              have hv : v1 = v := by simpa [memberPath] using hpath1
              subst hv
              have happly : ∀ old, applyNode old v1 = v1 := by
                intro old
                cases v1 with
                | object mm => exact absurd rfl (hnotobj mm)
                | null => rfl
                | value w => rfl
                | array es => rfl
                | nodeReference r => rfl
                | derivedArray es => rfl
                | derivedObject b c => rfl
              have hAM' : (applyMap dm sm).find k = some v1 := by
                rw [hAM]
                cases hd : dm.find k with
                | some old => simp [happly old]
                | none => simp
              simp [memberPath, hAM']
          | cons r2 rest2 =>
              cases v1 with
              | object sm1 =>
                  have hnd1 : keysNodup sm1 = true ∧ wfKeysMembers sm1 = true := by
                    have := wfKeysMembers_find sm hwf hfind
                    simpa [wfKeys, Bool.and_eq_true] using this
                  revert hAM
                  cases hd : dm.find k with
                  | some old =>
                      intro hAM
                      cases old with
                      | object dm1 =>
                          have hAM' : (applyMap dm sm).find k =
                              some (.object (applyMap dm1 sm1)) := hAM
                          have hrec := applyMap_override_wins (r2 :: rest2) sm1 dm1 v
                            hnd1.1 hnd1.2 hpath1 hnotobj (by simp)
                          simp only [memberPath, hAM']
                          simpa [memberPath] using hrec
                      | null =>
                          have hAM' : (applyMap dm sm).find k = some (.object sm1) := hAM
                          simp only [memberPath, hAM']
                          simpa [memberPath] using hpath1
                      | value w =>
                          have hAM' : (applyMap dm sm).find k = some (.object sm1) := hAM
                          simp only [memberPath, hAM']
                          simpa [memberPath] using hpath1
                      | array es =>
                          have hAM' : (applyMap dm sm).find k = some (.object sm1) := hAM
                          simp only [memberPath, hAM']
                          simpa [memberPath] using hpath1
                      | nodeReference r =>
                          have hAM' : (applyMap dm sm).find k = some (.object sm1) := hAM
                          simp only [memberPath, hAM']
                          simpa [memberPath] using hpath1
                      | derivedArray es =>
                          have hAM' : (applyMap dm sm).find k = some (.object sm1) := hAM
                          simp only [memberPath, hAM']
                          simpa [memberPath] using hpath1
                      | derivedObject b c =>
                          have hAM' : (applyMap dm sm).find k = some (.object sm1) := hAM
                          simp only [memberPath, hAM']
                          simpa [memberPath] using hpath1
                  | none =>
                      intro hAM
                      have hAM' : (applyMap dm sm).find k = some (.object sm1) := hAM
                      simp only [memberPath, hAM']
                      simpa [memberPath] using hpath1
              | null => simp [memberPath] at hpath1
              | value w => simp [memberPath] at hpath1
              | array es => simp [memberPath] at hpath1
              | nodeReference r => simp [memberPath] at hpath1
              | derivedArray es => simp [memberPath] at hpath1
              | derivedObject b c => simp [memberPath] at hpath1

/-! ## Lemmas: the resolution loop -/

theorem resolveLoop_count_le : ∀ (n : Nat) (root : ConfigNode),
    (resolveLoop n root).2 ≤ n := by
  intro n
  induction n with
  | zero => intro root; simp [resolveLoop]
  | succ n ih =>
      intro root
      rcases hp : resolvePass root with ⟨root1, res⟩
      cases res with
      | resolved => simp only [resolveLoop, hp]; omega
      | unresolved =>
          have : (resolveLoop (n + 1) root).2 = (resolveLoop n root1).2 + 1 := by
            simp only [resolveLoop, hp]
          rw [this]
          have := ih root1
          omega
      | error => simp only [resolveLoop, hp]; omega

theorem passState_shift : ∀ (k : Nat) (root : ConfigNode),
    passState root (k + 1) = passState (resolvePass root).1 k
  | 0, root => rfl
  | k + 1, root => by
      show (resolvePass (passState root (k + 1))).1 =
        (resolvePass (passState (resolvePass root).1 k)).1
      rw [passState_shift k root]

theorem resolveLoop_all_unresolved : ∀ (n : Nat) (root : ConfigNode),
    (∀ k, k < n → (resolvePass (passState root k)).2 = RRes.unresolved) →
    (resolveLoop n root).1 = Except.error ReadLoopErr.notFullyResolved
  | 0, _, _ => rfl
  | n + 1, root, h => by
      rcases hp : resolvePass root with ⟨root1, res⟩
      have h0 := h 0 (by omega)
      rw [show passState root 0 = root from rfl, hp] at h0
      have hres : res = RRes.unresolved := h0
      subst hres
      have hloop : (resolveLoop (n + 1) root).1 = (resolveLoop n root1).1 := by
        simp only [resolveLoop, hp]
      rw [hloop]
      refine resolveLoop_all_unresolved n root1 (fun k hk => ?_)
      have hk1 := h (k + 1) (by omega)
      rw [passState_shift k root, hp] at hk1
      exact hk1

theorem resolvePass_selfRef : resolvePass selfRefRoot = (selfRefRoot, RRes.unresolved) := by
  decide

theorem resolveLoop_selfRef : ∀ (n : Nat),
    resolveLoop n selfRefRoot = (Except.error ReadLoopErr.notFullyResolved, n)
  | 0 => rfl
  | n + 1 => by
      simp only [resolveLoop, resolvePass_selfRef, resolveLoop_selfRef n]

theorem resolvePass_mutualRef : resolvePass mutualRefRoot = (mutualRefStep, RRes.unresolved) := by
  decide

theorem resolvePass_mutualRefStep :
    resolvePass mutualRefStep = (mutualRefStep, RRes.unresolved) := by
  decide

theorem resolveLoop_mutualRefStep : ∀ (n : Nat),
    resolveLoop n mutualRefStep = (Except.error ReadLoopErr.notFullyResolved, n)
  | 0 => rfl
  | n + 1 => by
      simp only [resolveLoop, resolvePass_mutualRefStep, resolveLoop_mutualRefStep n]

/-! ## Lemmas: the JSON reader -/

theorem string_mk_data (s : String) : String.mk s.data = s := by
  cases s
  rfl

theorem stripDecorator_amp (name : String) :
    stripDecorator ("&" ++ name) = ('&', name) := by
  have h : ("&" ++ name).data = '&' :: name.data := by
    rw [String.data_append]
    rfl
  unfold stripDecorator
  rw [h]
  simp [string_mk_data]

theorem MemberMap.containsMember_iff_mem_keys :
    ∀ (ms : MemberMap) (k : String), ms.containsMember k = true ↔ k ∈ ms.keys
  | .nil, k => by simp [MemberMap.containsMember, MemberMap.find, MemberMap.keys]
  | .cons k0 v0 tl, k => by
      by_cases hk : k0 = k
      · simp [MemberMap.containsMember, MemberMap.find, MemberMap.keys, hk]
      · simp only [MemberMap.containsMember, MemberMap.find, MemberMap.keys, hk,
          if_false, List.mem_cons]
        rw [← MemberMap.containsMember]
        rw [MemberMap.containsMember_iff_mem_keys tl k]
        constructor
        · intro h; exact Or.inr h
        · intro h
          cases h with
          | inl h => exact absurd h.symm hk
          | inr h => exact h

theorem MemberMap.keys_append :
    ∀ (ms : MemberMap) (k : String) (v : ConfigNode),
      (ms.append k v).keys = ms.keys ++ [k]
  | .nil, k, v => rfl
  | .cons k0 v0 tl, k, v => by
      simp [MemberMap.append, MemberMap.keys, MemberMap.keys_append tl k v]

/-- Two members of one JSON object resolving to the same stripped name make
the object fail to read. -/
theorem readJsonObjectMembers_dup :
    ∀ (ms : JMap) (p : String) (acc : MemberMap), acc.keys.Nodup →
      ¬ (acc.keys ++ strippedNames ms).Nodup →
      readJsonObjectMembers ms p acc = none
  | .nil, p, acc, hnd, hdup => absurd hnd (by simpa [strippedNames] using hdup)
  | .cons key v tl, p, acc, hnd, hdup => by
      simp only [readJsonObjectMembers]
      split
      · next hvalid =>
          split
          · rfl
          · next hcont =>
              split
              · next node hmn =>
                  have hnotmem : (stripDecorator key).2 ∉ acc.keys := by
                    intro hmem
                    exact hcont ((MemberMap.containsMember_iff_mem_keys acc _).mpr hmem)
                  refine readJsonObjectMembers_dup tl p _ ?_ ?_
                  · rw [MemberMap.keys_append]
                    simp [List.nodup_append, hnd, hnotmem]
                  · rw [MemberMap.keys_append]
                    intro hcontra
                    refine hdup ?_
                    simpa [strippedNames, List.append_assoc] using hcontra
              · rfl
      · rfl

/-! ## Lemmas: the factory registry and the member hash table -/

theorem ReaderRegistry.find_store_self :
    ∀ (reg : ReaderRegistry) (k : String) (r : Nat),
      (ReaderRegistry.store reg k r).find k = some r
  | [], k, r => by simp [ReaderRegistry.store, ReaderRegistry.find]
  | (t, r0) :: tl, k, r => by
      by_cases ht : t = k
      · simp [ReaderRegistry.store, ReaderRegistry.find, ht]
      · simp [ReaderRegistry.store, ReaderRegistry.find, ht,
              ReaderRegistry.find_store_self tl k r]

theorem ReaderRegistry.find_store_ne :
    ∀ (reg : ReaderRegistry) {k t' : String} {r : Nat}, t' ≠ k →
      (ReaderRegistry.store reg k r).find t' = reg.find t'
  | [], k, t', r, hne => by
      simp [ReaderRegistry.store, ReaderRegistry.find,
            show k ≠ t' from fun h => hne h.symm]
  | (t, r0) :: tl, k, t', r, hne => by
      by_cases ht : t = k
      · subst ht
        simp [ReaderRegistry.store, ReaderRegistry.find,
              show t ≠ t' from fun h => hne h.symm]
      · by_cases ht' : t = t'
        · simp [ReaderRegistry.store, ReaderRegistry.find, ht, ht', hne]
        · simp [ReaderRegistry.store, ReaderRegistry.find, ht, ht',
                ReaderRegistry.find_store_ne tl hne]

theorem chainStore_keys :
    ∀ (chain : List (String × ConfigNode)) (k : String) (v : ConfigNode),
      chain.any (fun e => e.1 = k) = true →
      (chainStore chain k v).map Prod.fst = chain.map Prod.fst
  | [], k, v, hmem => by simp at hmem
  | (k0, v0) :: tl, k, v, hmem => by
      by_cases hk : k0 = k
      · simp [chainStore, hk]
      · have hmem' : tl.any (fun e => e.1 = k) = true := by
          simpa [hk] using hmem
        simp [chainStore, hk, chainStore_keys tl k v hmem']

theorem flatten_set_keys :
    ∀ (l : List (List (String × ConfigNode))) (i : Nat)
      (c : List (String × ConfigNode)),
      c.map Prod.fst = (l.getD i []).map Prod.fst →
      ((l.set i c).flatten).map Prod.fst = (l.flatten).map Prod.fst
  | [], i, c, h => by simp
  | b :: tl, 0, c, h => by
      simp only [List.getD_cons_zero] at h
      simp [List.set, List.flatten_cons, h]
  | b :: tl, i + 1, c, h => by
      simp only [List.getD_cons_succ] at h
      simp only [List.set, List.flatten_cons, List.map_append]
      rw [flatten_set_keys tl i c h]

/-! ## Claim theorems -/

/-- C1: `read` runs the reference-resolution pass at most `max_cycles` times
(`max_cycles` configurable, asserted ≥ 1, default 100); the loop returns
success at the first `Resolved` pass, aborts on the first `Error` pass, and
when every pass up to `max_cycles` is `Unresolved` it fails with the
"failed to fully resolve" error; a self-referential `NodeReference` (and the
mutually referential pair) makes every pass `Unresolved` and hence
terminates in that error after exactly `max_cycles` passes. -/
theorem C1_resolution_cycle_bound :
    referenceResolutionMaxCyclesDefault = 100 ∧
    (∀ n, (setReferenceResolutionMaxCycles n).isSome = true ↔ 1 ≤ n) ∧
    (∀ n root, (resolveLoop n root).2 ≤ n) ∧
    (∀ n root root1, resolvePass root = (root1, RRes.resolved) →
       resolveLoop (n + 1) root = (Except.ok root1, 1)) ∧
    (∀ n root root1, resolvePass root = (root1, RRes.error) →
       resolveLoop (n + 1) root = (Except.error ReadLoopErr.resolveError, 1)) ∧
    (∀ n root root1, resolvePass root = (root1, RRes.unresolved) →
       resolveLoop (n + 1) root =
         ((resolveLoop n root1).1, (resolveLoop n root1).2 + 1)) ∧
    (∀ n root, (∀ k, k < n → (resolvePass (passState root k)).2 = RRes.unresolved) →
       (resolveLoop n root).1 = Except.error ReadLoopErr.notFullyResolved) ∧
    (∀ n, resolveLoop n selfRefRoot = (Except.error ReadLoopErr.notFullyResolved, n)) ∧
    (∀ n, (resolveLoop n mutualRefRoot).1 = Except.error ReadLoopErr.notFullyResolved) := by
  refine ⟨rfl, ?_, resolveLoop_count_le, ?_, ?_, ?_, resolveLoop_all_unresolved,
    resolveLoop_selfRef, ?_⟩
  · intro n
    constructor
    · intro h
      by_cases hn : 0 < n
      · omega
      · simp [setReferenceResolutionMaxCycles, hn] at h
    · intro h
      simp [setReferenceResolutionMaxCycles, show 0 < n by omega]
  · intro n root root1 hp
    simp only [resolveLoop, hp]
  · intro n root root1 hp
    simp only [resolveLoop, hp]
  · intro n root root1 hp
    simp only [resolveLoop, hp]
  · intro n
    cases n with
    | zero => rfl
    | succ n =>
        have hloop : (resolveLoop (n + 1) mutualRefRoot).1 =
            (resolveLoop n mutualRefStep).1 := by
          simp only [resolveLoop, resolvePass_mutualRef]
        rw [hloop, resolveLoop_mutualRefStep n]

/-- Witness for C1 at concrete inputs: the self-referential document fails
with the "failed to fully resolve" error after exactly the default 100
passes, and a plain document resolves in a single pass. -/
theorem C1_resolution_cycle_bound_witness :
    resolveLoop 100 selfRefRoot = (Except.error ReadLoopErr.notFullyResolved, 100) ∧
    resolveLoop 3 (ConfigNode.object (.cons "b" (.value (.num 7)) .nil)) =
      (Except.ok (ConfigNode.object (.cons "b" (.value (.num 7)) .nil)), 1) := by
  obtain ⟨h1, h2, h3, h4, h5, h6, h7, h8, h9⟩ := C1_resolution_cycle_bound
  exact ⟨h8 100, h4 2 _ _ (by decide)⟩

/-- C2: resolving a `NodeReference` node: with no parent the outcome is
`Error`; otherwise the target is looked up via the parent's `nodeAtPath`
applied to the stored reference string; a missing target is `Unresolved`
and leaves the tree unchanged; a found target replaces the reference node
in place by a (deep-cloned) copy of the target sitting at the reference's
former position, with outcome `Resolved` exactly when the copy contains no
reference/derived kinds. -/
theorem C2_resolveNodeReference_behaviour (frames : WalkStack) (tree : ConfigNode)
    (loc : List Nat) (ref : String)
    (hnode : nodeAt tree loc = some (.nodeReference ref)) :
    (loc = [] ∧ frames = [] →
       resolveReferences frames tree loc (.nodeReference ref) = (tree, RRes.error)) ∧
    (∀ pstack, stackParent ((tree, loc) :: frames) = some pstack →
       (findRef pstack ref = none →
          resolveReferences frames tree loc (.nodeReference ref) =
            (tree, RRes.unresolved)) ∧
       (∀ target, findRef pstack ref = some target →
          resolveReferences frames tree loc (.nodeReference ref) =
            (replaceAt tree loc target,
             if isFullyResolved target = true then RRes.resolved else RRes.unresolved) ∧
          nodeAt (replaceAt tree loc target) loc = some target)) := by
  constructor
  · intro hroot
    have hp : stackParent ((tree, loc) :: frames) = none :=
      stackParent_eq_none.mpr hroot
    simp only [resolveReferences, resolveNodeReference, hp]
  · intro pstack hp
    constructor
    · intro hf
      simp only [resolveReferences, resolveNodeReference, hp, hf]
    · intro target hf
      constructor
      · simp only [resolveReferences, resolveNodeReference, hp, hf]
      · exact nodeAt_replaceAt_self hnode target

/-- Witness for C2 at a concrete input: in `{"a": 7, "&r": "/a"}` the
reference member `r` is replaced by the value `7` and the outcome is
`Resolved`. -/
theorem C2_resolveNodeReference_behaviour_witness :
    resolveReferences [] refDemoTree [1] (.nodeReference "/a") =
      (.object (.cons "a" (.value (.num 7)) (.cons "r" (.value (.num 7)) .nil)),
       RRes.resolved) := by
  have h := ((C2_resolveNodeReference_behaviour [] refDemoTree [1] "/a" (by decide)).2
    [(refDemoTree, [])] (by decide)).2 (.value (.num 7)) (by decide)
  exact h.1.trans (by decide)

/-- C3: resolving a `DerivedObject`: the bases are looked up from the parent
in list order and applied onto an initially empty accumulator object; a
missing or not fully resolved base makes the outcome `Unresolved` with the
tree unchanged; with all bases applied and a fully resolved override, a
`Null` override is skipped and an `Object` override is applied last, and the
node is replaced in place by the accumulator with outcome `Resolved`; on the
document with bases `/a = {m:1}`, `/b = {m:2,n:3}` and override `{n:7}` the
derived member resolves to `{m:2, n:7}` (later bases override earlier ones
and the override wins over every base). -/
theorem C3_resolveDerivedObject_behaviour (frames : WalkStack) (tree : ConfigNode)
    (loc : List Nat) (bases : List String) (config : ConfigNode)
    (pstack : WalkStack)
    (hnode : nodeAt tree loc = some (.derivedObject bases config))
    (hp : stackParent ((tree, loc) :: frames) = some pstack) :
    (applyBases pstack bases (.object .nil) = BasesRes.unresolvedB →
       resolveReferences frames tree loc (.derivedObject bases config) =
         (tree, RRes.unresolved)) ∧
    (∀ base rest acc, findRef pstack base = none →
       applyBases pstack (base :: rest) acc = BasesRes.unresolvedB) ∧
    (∀ base rest acc baseNode, findRef pstack base = some baseNode →
       isFullyResolved baseNode = false →
       applyBases pstack (base :: rest) acc = BasesRes.unresolvedB) ∧
    (∀ base rest acc baseNode acc', findRef pstack base = some baseNode →
       isFullyResolved baseNode = true → applyObject acc baseNode = some acc' →
       applyBases pstack (base :: rest) acc = applyBases pstack rest acc') ∧
    (∀ acc, applyBases pstack bases (.object .nil) = BasesRes.okB acc →
       isFullyResolved config = true →
       resolveReferences frames tree loc (.derivedObject bases config) =
         finishDerivedObject tree loc acc config ∧
       (config = .null →
          finishDerivedObject tree loc acc config =
            (replaceAt tree loc acc, RRes.resolved)) ∧
       (∀ acc', applyObject acc config = some acc' → config ≠ .null →
          finishDerivedObject tree loc acc config =
            (replaceAt tree loc acc', RRes.resolved))) ∧
    ((resolvePass derivedObjectRoot).2 = RRes.resolved ∧
       nodeAt (resolvePass derivedObjectRoot).1 [2] =
         some (.object (.cons "m" (.value (.num 2))
           (.cons "n" (.value (.num 7)) .nil)))) := by
  refine ⟨?_, ?_, ?_, ?_, ?_, by decide, by decide⟩
  · intro hb
    simp only [resolveReferences, hp, hb]
  · intro base rest acc hf
    simp only [applyBases, hf]
  · intro base rest acc baseNode hf hfr
    simp [applyBases, hf, hfr]
  · intro base rest acc baseNode acc' hf hfr happ
    simp [applyBases, hf, hfr, happ]
  · intro acc hb hcfg
    refine ⟨by simp [resolveReferences, hp, hb, hcfg], ?_, ?_⟩
    · intro hc
      subst hc
      rfl
    · intro acc' happ hnotnull
      cases config with
      | null => exact absurd rfl hnotnull
      | value v => simp [finishDerivedObject, happ]
      | array es => simp [finishDerivedObject, happ]
      | object cm => simp [finishDerivedObject, happ]
      | nodeReference r => simp [finishDerivedObject, happ]
      | derivedArray es => simp [finishDerivedObject, happ]
      | derivedObject b c => simp [finishDerivedObject, happ]

/-- Witness for C3 at the multiple-bases document: the derived member `d`
with bases `/a`, `/b` and override `{n:7}` is replaced in place by
`{m:2, n:7}` with outcome `Resolved`. -/
theorem C3_resolveDerivedObject_behaviour_witness :
    resolveReferences [] derivedObjectRoot [2]
      (.derivedObject ["/a", "/b"] (.object (.cons "n" (.value (.num 7)) .nil))) =
      (replaceAt derivedObjectRoot [2]
        (.object (.cons "m" (.value (.num 2)) (.cons "n" (.value (.num 7)) .nil))),
       RRes.resolved) := by
  have h := (C3_resolveDerivedObject_behaviour [] derivedObjectRoot [2] ["/a", "/b"]
    (.object (.cons "n" (.value (.num 7)) .nil)) [(derivedObjectRoot, [])]
    (by decide) (by decide)).2.2.2.2.1
    (.object (.cons "m" (.value (.num 2)) (.cons "n" (.value (.num 3)) .nil)))
    (by decide) (by decide)
  exact h.1.trans (by decide)

/-- C4 counterexample: with `nbase.json` holding config `{"a": {"m": 1}}`
included from `ntop.json` whose own config is `{"a": {"n": 2}}`, the member
path `/a` is present in both, yet the final value at `/a` is the recursive
merge `{m:1, n:2}`, not the config's value `{n:2}`. -/
theorem C4_counterexample :
    read nestedFS 2 "ntop.json" "/" "/" =
      some (.object (.cons "a" (.object (.cons "m" (.value (.num 1))
        (.cons "n" (.value (.num 2)) .nil))) .nil)) ∧
    memberPath (.object (.cons "a" (.object (.cons "m" (.value (.num 1))
        (.cons "n" (.value (.num 2)) .nil))) .nil)) ["a"] ≠
      some (.object (.cons "n" (.value (.num 2)) .nil)) := by
  exact ⟨by decide, by decide⟩

/-- C4 (amended): `read` applies the document's config object onto the
aggregate built from the includes; for every member path at which config
holds a non-`Object` value, the final value is the one from config (config
wins on conflicts over all includes); members that are objects on both
sides are merged recursively.  Including `base.json` with config
`{x:1, y:2}` from `top.json` whose own config is `{y:9, z:3}` yields
`Object{x=1, y=9, z=3}`. -/
theorem C4_config_overrides_includes :
    (∀ (dm sm : MemberMap) (r : ConfigNode) (p : List String) (v : ConfigNode),
       wfKeys (.object sm) = true →
       applyObject (.object dm) (.object sm) = some r →
       memberPath (.object sm) p = some v → (∀ mm, v ≠ .object mm) → p ≠ [] →
       memberPath r p = some v) ∧
    read includeFS 2 "top.json" "/" "/" =
      some (.object (.cons "x" (.value (.num 1))
        (.cons "y" (.value (.num 9)) (.cons "z" (.value (.num 3)) .nil)))) := by
  constructor
  · intro dm sm r p v hwf happ hpath hno hne
    have hr : r = .object (applyMap dm sm) := by
      simpa [applyObject] using happ.symm
    subst hr
    have hparts : keysNodup sm = true ∧ wfKeysMembers sm = true := by
      simpa [wfKeys, Bool.and_eq_true] using hwf
    exact applyMap_override_wins p sm dm v hparts.1 hparts.2 hpath hno hne
  · decide

/-- Witness for C4's general part at a concrete input: applying config
`{y:9, z:3}` onto the aggregate `{x:1, y:2}` leaves `9` at the conflicting
leaf path `y`. -/
theorem C4_config_overrides_includes_witness :
    memberPath (.object (.cons "x" (.value (.num 1))
      (.cons "y" (.value (.num 9)) (.cons "z" (.value (.num 3)) .nil)))) ["y"] =
      some (.value (.num 9)) :=
  C4_config_overrides_includes.1
    (.cons "x" (.value (.num 1)) (.cons "y" (.value (.num 2)) .nil))
    (.cons "y" (.value (.num 9)) (.cons "z" (.value (.num 3)) .nil))
    (.object (.cons "x" (.value (.num 1))
      (.cons "y" (.value (.num 9)) (.cons "z" (.value (.num 3)) .nil))))
    ["y"] (.value (.num 9)) (by decide) (by decide) (by decide)
    (fun mm => by simp) (by simp)

/-- C5 counterexample: a document whose top-level object has no `config`
member fails to read the config member: `QJsonObject::value` yields the
`Undefined` value, which is not null, so `readConfigMember` takes the
"not a JSON Object" error branch instead of yielding a Null node. -/
theorem C5_counterexample :
    readConfigMember JMap.nil = none ∧ JMap.nil.value "config" = JVal.undefined :=
  ⟨by decide, by decide⟩

/-- C5 (amended): reading the config member succeeds with a Null node
exactly when the member is present with the JSON value `null`; an absent
member is an error (its `Undefined` value is neither null nor an object);
a present JSON object is read via the object-reading rules (which may
themselves fail); any other present value is an error; a Null config member
is then benignly applied onto the include aggregate as a no-op. -/
theorem C5_readConfigMember_behaviour (rootObject : JMap) :
    (readConfigMember rootObject = some .null ↔
       rootObject.lookup "config" = some .null) ∧
    (rootObject.lookup "config" = none → readConfigMember rootObject = none) ∧
    (∀ ms, rootObject.lookup "config" = some (.obj ms) →
       readConfigMember rootObject = readJsonObject ms "/") ∧
    (∀ v, rootObject.lookup "config" = some v → v ≠ .null → (∀ ms, v ≠ .obj ms) →
       readConfigMember rootObject = none) ∧
    (∀ dm, applyObject (.object dm) .null = some (.object dm)) := by
  refine ⟨⟨?_, ?_⟩, ?_, ?_, ?_, fun dm => rfl⟩
  · intro h
    revert h
    cases hl : rootObject.lookup "config" with
    | none => intro h; simp [readConfigMember, JMap.value, hl, JVal.isNull] at h
    | some v =>
        cases v with
        | null => intro _; rfl
        | undefined => intro h; simp [readConfigMember, JMap.value, hl, JVal.isNull] at h
        | bool b => intro h; simp [readConfigMember, JMap.value, hl, JVal.isNull] at h
        | num n => intro h; simp [readConfigMember, JMap.value, hl, JVal.isNull] at h
        | str s => intro h; simp [readConfigMember, JMap.value, hl, JVal.isNull] at h
        | arr xs => intro h; simp [readConfigMember, JMap.value, hl, JVal.isNull] at h
        | obj ms =>
            intro h
            have hro : readJsonObject ms "/" = some ConfigNode.null := by
              simpa [readConfigMember, JMap.value, hl, JVal.isNull] using h
            revert hro
            unfold readJsonObject
            cases readJsonObjectMembers ms "/" .nil with
            | some acc => intro hh; simp at hh
            | none => intro hh; simp at hh
  · intro hl
    simp [readConfigMember, JMap.value, hl, JVal.isNull]
  · intro hl
    simp [readConfigMember, JMap.value, hl, JVal.isNull]
  · intro ms hl
    simp [readConfigMember, JMap.value, hl, JVal.isNull, readJsonObject]
  · intro v hl hnull hobj
    cases v with
    | null => exact absurd rfl hnull
    | undefined => simp [readConfigMember, JMap.value, hl, JVal.isNull]
    | bool b => simp [readConfigMember, JMap.value, hl, JVal.isNull]
    | num n => simp [readConfigMember, JMap.value, hl, JVal.isNull]
    | str s => simp [readConfigMember, JMap.value, hl, JVal.isNull]
    | arr xs => simp [readConfigMember, JMap.value, hl, JVal.isNull]
    | obj ms => exact absurd rfl (hobj ms)

/-- Witness for C5's amended claim at a concrete input: an explicit null
config member yields a Null node. -/
theorem C5_readConfigMember_behaviour_witness :
    readConfigMember (JMap.cons "config" .null .nil) = some .null :=
  (C5_readConfigMember_behaviour (JMap.cons "config" .null .nil)).1.mpr (by decide)

/-- C7 counterexample: the Object member storage
(`ConfigNodeData::ObjectNodeData`) is `std::unordered_map`, a hash table;
with a hash sending `"a"` to bucket 1 of 2 and `"b"` to bucket 0, inserting
`"a"` and then `"b"` enumerates the members as `["b", "a"]`, not in the
insertion order `["a", "b"]`. -/
theorem C7_counterexample :
    (unorderedMapIter demoBuckets).map Prod.fst = ["b", "a"] ∧
    (unorderedMapIter demoBuckets).map Prod.fst ≠ ["a", "b"] :=
  ⟨by decide, by decide⟩

/-- C7 (amended): Object nodes store their members in a hash table whose
enumeration visits the buckets in index order (an order determined by the
hash, not by insertion); re-setting an existing member name assigns the
mapped value in place, preserving the member's current enumeration
position. -/
theorem C7_unorderedMap_storage_order (h : String → Nat) (buckets : ObjectBuckets)
    (k : String) (v : ConfigNode)
    (hmem : (buckets.getD (h k % buckets.length) []).any (fun e => e.1 = k) = true) :
    (unorderedMapIter (unorderedMapStore h buckets k v)).map Prod.fst =
      (unorderedMapIter buckets).map Prod.fst := by
  unfold unorderedMapStore unorderedMapIter
  exact flatten_set_keys buckets _ _ (chainStore_keys _ k v hmem)

/-- Witness for C7's amended claim at a concrete input: re-setting the
existing member `"a"` leaves the enumeration order unchanged. -/
theorem C7_unorderedMap_storage_order_witness :
    (unorderedMapIter (unorderedMapStore demoHash demoBuckets "a"
      (.value (.num 9)))).map Prod.fst = (unorderedMapIter demoBuckets).map Prod.fst :=
  C7_unorderedMap_storage_order demoHash demoBuckets "a" (.value (.num 9)) (by decide)

/-- C8: an object member whose key begins with the decorator `&` is read as
the reference kind selected by the JSON value's type — a string yields a
`NodeReference` (validated against the member's node path), an array a
`DerivedArray`, an object a `DerivedObject` (bases plus config override) —
while any other value type is an error; a key whose stripped name is not a
valid node name is an error; and two members of one object resolving to the
same stripped name make the read fail. -/
theorem C8_ampersand_decorator (name p : String)
    (hname : validateNodeName name = true) :
    (∀ key v tl, validateNodeName (stripDecorator key).2 = false →
       readJsonObject (.cons key v tl) p = none) ∧
    (∀ s, readJsonObject (.cons ("&" ++ name) (.str s) .nil) p =
       (if validateNodePathAt s (appendNodeToPath p name) = true
        then some (.object (.cons name (.nodeReference s) .nil)) else none)) ∧
    (∀ xs, readJsonObject (.cons ("&" ++ name) (.arr xs) .nil) p =
       (match readDerivedArrayElems xs (appendNodeToPath p name) with
        | some es => some (.object (.cons name (.derivedArray es) .nil))
        | none => none)) ∧
    (∀ ms, readJsonObject (.cons ("&" ++ name) (.obj ms) .nil) p =
       (match readDerivedObjectBases ms,
              readDerivedObjectConfigMember ms (appendNodeToPath p name) with
        | some bases, some config =>
            some (.object (.cons name (.derivedObject bases config) .nil))
        | some _, none => none
        | none, _ => none)) ∧
    (readJsonObject (.cons ("&" ++ name) .null .nil) p = none) ∧
    (∀ b, readJsonObject (.cons ("&" ++ name) (.bool b) .nil) p = none) ∧
    (∀ n, readJsonObject (.cons ("&" ++ name) (.num n) .nil) p = none) ∧
    (∀ ms, ¬ (strippedNames ms).Nodup → readJsonObject ms p = none) := by
  have hamp := stripDecorator_amp name
  refine ⟨?_, ?_, ?_, ?_, ?_, ?_, ?_, ?_⟩
  · intro key v tl hbad
    simp [readJsonObject, readJsonObjectMembers, hbad]
  · intro s
    by_cases hv : validateNodePathAt s (appendNodeToPath p name) = true
    · simp [readJsonObject, readJsonObjectMembers, hamp, hname, readAmpersandNode,
            readReferenceNode, hv, MemberMap.containsMember, MemberMap.find,
            MemberMap.append]
    · simp [readJsonObject, readJsonObjectMembers, hamp, hname, readAmpersandNode,
            readReferenceNode, hv, MemberMap.containsMember, MemberMap.find]
  · intro xs
    cases hd : readDerivedArrayElems xs (appendNodeToPath p name) with
    | some es =>
        simp [readJsonObject, readJsonObjectMembers, hamp, hname, readAmpersandNode,
              hd, MemberMap.containsMember, MemberMap.find, MemberMap.append]
    | none =>
        simp [readJsonObject, readJsonObjectMembers, hamp, hname, readAmpersandNode,
              hd, MemberMap.containsMember, MemberMap.find]
  · intro ms
    cases hb : readDerivedObjectBases ms with
    | some bases =>
        cases hc : readDerivedObjectConfigMember ms (appendNodeToPath p name) with
        | some config =>
            simp [readJsonObject, readJsonObjectMembers, hamp, hname,
                  readAmpersandNode, hb, hc, MemberMap.containsMember,
                  MemberMap.find, MemberMap.append]
        | none =>
            simp [readJsonObject, readJsonObjectMembers, hamp, hname,
                  readAmpersandNode, hb, hc, MemberMap.containsMember,
                  MemberMap.find]
    | none =>
        simp [readJsonObject, readJsonObjectMembers, hamp, hname,
              readAmpersandNode, hb, MemberMap.containsMember, MemberMap.find]
  · simp [readJsonObject, readJsonObjectMembers, hamp, hname, readAmpersandNode,
          MemberMap.containsMember, MemberMap.find]
  · intro b
    simp [readJsonObject, readJsonObjectMembers, hamp, hname, readAmpersandNode,
          MemberMap.containsMember, MemberMap.find]
  · intro n
    simp [readJsonObject, readJsonObjectMembers, hamp, hname, readAmpersandNode,
          MemberMap.containsMember, MemberMap.find]
  · intro ms hdup
    have hnone := readJsonObjectMembers_dup ms p .nil (by simp [MemberMap.keys])
      (by simpa [MemberMap.keys] using hdup)
    simp [readJsonObject, hnone]

/-- Witness for C8 at a concrete input: the member `"&r": "/a"` of an
object at path `/` is read as a `NodeReference` with the stored reference
string `/a`. -/
theorem C8_ampersand_decorator_witness :
    readJsonObject (.cons ("&" ++ "r") (.str "/a") .nil) "/" =
      some (.object (.cons "r" (.nodeReference "/a") .nil)) :=
  ((C8_ampersand_decorator "r" "/" (by decide)).2.1 "/a").trans (by decide)

/-- C9: an include entry whose `type` member is present with the JSON value
null is accepted and treated exactly as the default `"CppConfigFramework"`;
the type check fails only when the member is present and non-null
non-string, or is a string different from `"CppConfigFramework"`. -/
theorem C9_include_type_null_default (includeObject : JMap) :
    (includeObject.value "type" = .null →
       readIncludeItemType includeObject = some "CppConfigFramework") ∧
    (includeItemTypeAccepted includeObject = true ↔
       (includeObject.containsKey "type" = false ∨
        includeObject.value "type" = .null ∨
        includeObject.value "type" = .str "CppConfigFramework")) := by
  constructor
  · intro hv
    have hl : includeObject.lookup "type" = some .null := by
      revert hv
      unfold JMap.value
      cases hl : includeObject.lookup "type" with
      | none => intro hv; simp at hv
      | some v => intro hv; simp at hv; rw [hv]
    simp [readIncludeItemType, JMap.containsKey, JMap.value, hl]
  · cases hl : includeObject.lookup "type" with
    | none =>
        simp [includeItemTypeAccepted, readIncludeItemType, JMap.containsKey,
              JMap.value, hl]
    | some v =>
        cases v with
        | null =>
            simp [includeItemTypeAccepted, readIncludeItemType, JMap.containsKey,
                  JMap.value, hl]
        | str s =>
            by_cases hs : s = "CppConfigFramework"
            · simp [includeItemTypeAccepted, readIncludeItemType, JMap.containsKey,
                    JMap.value, hl, hs]
            · simp [includeItemTypeAccepted, readIncludeItemType, JMap.containsKey,
                    JMap.value, hl, hs]
        | undefined =>
            simp [includeItemTypeAccepted, readIncludeItemType, JMap.containsKey,
                  JMap.value, hl]
        | bool b =>
            simp [includeItemTypeAccepted, readIncludeItemType, JMap.containsKey,
                  JMap.value, hl]
        | num n =>
            simp [includeItemTypeAccepted, readIncludeItemType, JMap.containsKey,
                  JMap.value, hl]
        | arr xs =>
            simp [includeItemTypeAccepted, readIncludeItemType, JMap.containsKey,
                  JMap.value, hl]
        | obj ms =>
            simp [includeItemTypeAccepted, readIncludeItemType, JMap.containsKey,
                  JMap.value, hl]

/-- Witness for C9 at a concrete input: an include entry `{"type": null}`
keeps the default type. -/
theorem C9_include_type_null_default_witness :
    readIncludeItemType (JMap.cons "type" .null .nil) = some "CppConfigFramework" :=
  (C9_include_type_null_default (JMap.cons "type" .null .nil)).1 (by decide)

/-- C10: `registerConfigReader` returns false and leaves the registry
unchanged iff the type string is empty or the reader pointer is null;
otherwise it stores the reader under the type — replacing any previously
registered reader for that type and leaving other types unchanged — and
returns true; the factory constructor pre-registers `"CppConfigFramework"`,
so a freshly constructed factory dispatches that type. -/
theorem C10_registerConfigReader_behaviour (reg : ReaderRegistry) (type' : String)
    (reader : Option Nat) :
    ((registerConfigReader reg type' reader).2 = false ↔
       type' = "" ∨ reader = none) ∧
    ((registerConfigReader reg type' reader).2 = false →
       (registerConfigReader reg type' reader).1 = reg) ∧
    (∀ r, reader = some r → type' ≠ "" →
       (registerConfigReader reg type' reader).2 = true ∧
       ((registerConfigReader reg type' reader).1).find type' = some r ∧
       (∀ t, t ≠ type' →
          ((registerConfigReader reg type' reader).1).find t = reg.find t)) ∧
    readConfigDispatch configReaderFactoryInit "CppConfigFramework" =
      some defaultConfigReaderHandle := by
  refine ⟨?_, ?_, ?_, by decide⟩
  · by_cases ht : type' = ""
    · simp [registerConfigReader, ht]
    · cases reader with
      | none => simp [registerConfigReader, ht]
      | some r => simp [registerConfigReader, ht]
  · intro hfalse
    by_cases ht : type' = ""
    · simp [registerConfigReader, ht]
    · cases reader with
      | none => simp [registerConfigReader, ht]
      | some r => simp [registerConfigReader, ht] at hfalse
  · intro r hr ht
    subst hr
    refine ⟨by simp [registerConfigReader, ht], ?_, ?_⟩
    · simp only [registerConfigReader, ht]
      simp [ReaderRegistry.find_store_self]
    · intro t hne
      simp only [registerConfigReader, ht]
      simp [ReaderRegistry.find_store_ne reg hne]

/-- Witness for C10 at a concrete input: registering a reader under
`"CppConfigFramework"` in the empty registry succeeds, and the fresh
factory dispatches that type. -/
theorem C10_registerConfigReader_behaviour_witness :
    (registerConfigReader [] "CppConfigFramework" (some 0)).2 = true ∧
    readConfigDispatch configReaderFactoryInit "CppConfigFramework" = some 0 := by
  obtain ⟨h1, h2, h3, h4⟩ :=
    C10_registerConfigReader_behaviour [] "CppConfigFramework" (some 0)
  exact ⟨(h3 0 rfl (by decide)).1, h4⟩

/-- C6: every tree a successful read returns satisfies `is_fully_resolved`
(only kinds Null, Value, Array, Object remain): a `Resolved` resolver pass
leaves a fully resolved root, a resolution loop that returns a tree returns
it fully resolved, and a successful `read` returns a fully resolved tree. -/
theorem C6_resolved_tree_reference_free :
    (∀ root root', resolvePass root = (root', RRes.resolved) →
       isFullyResolved root' = true) ∧
    (∀ n root r, (resolveLoop n root).1 = Except.ok r → isFullyResolved r = true) ∧
    (∀ fs fuel filePath sourceNode destinationNode result,
       read fs fuel filePath sourceNode destinationNode = some result →
       isFullyResolved result = true) :=
  ⟨fun _ _ h => resolvePass_resolved h, resolveLoop_ok_fullyResolved, read_fullyResolved⟩

/-- Witness for C6 at a concrete input: the include-override example read
end to end produces a fully resolved tree. -/
theorem C6_resolved_tree_reference_free_witness :
    isFullyResolved (ConfigNode.object (.cons "x" (.value (.num 1))
      (.cons "y" (.value (.num 9)) (.cons "z" (.value (.num 3)) .nil)))) = true :=
  C6_resolved_tree_reference_free.2.2 includeFS 2 "top.json" "/" "/"
    (ConfigNode.object (.cons "x" (.value (.num 1))
      (.cons "y" (.value (.num 9)) (.cons "z" (.value (.num 3)) .nil)))) (by decide)

end CppConfigFramework
